import Mathlib

/-! Verification of mcp3008-speedtest.

A shallow embedding of `mcp3008-speedtest.c` (the functions `loop`, `dump` and
`show_elapsed`) together with theorems about the batch of SPI transfer
descriptors `loop` builds, the value decoding of `dump`, the elapsed-time and
rate arithmetic of `show_elapsed`, and the acquisition and release of resources
in `loop`.

Conventions of the embedding.

* Heap buffers are lists.  `tx` and `rx` are lists of bytes (naturals below
  256); `tr` is a list of descriptors.  What `malloc` hands out is not
  initialised: the prior contents are an arbitrary function of the index,
  supplied by the environment.
* Addresses are naturals.  The address of `tx[k]` is `txp + k` where `txp` is
  the address `malloc` returned.
* `int` parameters are integers.  The block count is a natural number: `main`
  admits only `1 ≤ blocks ≤ 1000`, and every statement below is inside that
  range.
* `struct timeval` fields (`time_t`, `suseconds_t`) are unbounded integers; the
  source says of them "We know the diff is never going to be that big so don't
  worry about wrapping issues."
* `double` is binary64: a value is a pair of a significand and an exponent, and
  every operation rounds to the nearest value of 53 bits, ties to even.  The
  exponent is unbounded; with 64-bit timestamps and a 32-bit count no operation
  of `show_elapsed` leaves the range of the normal numbers.
-/

namespace Mcp3008

/-! ## Data model -/

/-- The descriptor `struct spi_ioc_transfer` of `<linux/spi/spidev.h>`. -/
structure spi_ioc_transfer where
  tx_buf : Nat
  rx_buf : Nat
  len : Nat
  speed_hz : Nat
  delay_usecs : Nat
  bits_per_word : Nat
  cs_change : Nat
  tx_nbits : Nat
  rx_nbits : Nat
  pad : Nat
deriving DecidableEq, Repr

/-- The all-zero descriptor, what `memset(tr, 0, ...)` leaves in each element. -/
def zero_transfer : spi_ioc_transfer :=
  { tx_buf := 0, rx_buf := 0, len := 0, speed_hz := 0, delay_usecs := 0,
    bits_per_word := 0, cs_change := 0, tx_nbits := 0, rx_nbits := 0, pad := 0 }

/-- Conversion of an `int` to `unsigned char`. -/
def to_uchar (x : Int) : Nat := (x % 256).toNat

/-- Conversion of an `int` to `__u32`. -/
def to_u32 (x : Int) : Nat := (x % 4294967296).toNat

/-- The command byte expression `0x60 | (ch << 2)`, as an `int`. -/
def command_byte (ch : Int) : Int := Int.lor 0x60 (ch <<< (2 : Int))

/-- The library call `memset(buf, z, n)`: the first `n` units of `buf` become `z`, the rest
is untouched.  For `tx` and `rx` the unit is a byte; for `tr` the size passed is
`blocks * sizeof(struct spi_ioc_transfer)`, so the unit is a descriptor. -/
def memset {α : Type} (buf : List α) (z : α) (n : Nat) : List α :=
  List.replicate (min n buf.length) z ++ buf.drop n

/-- The three heap buffers of `loop`. -/
structure Bufs where
  tr : List spi_ioc_transfer
  tx : List Nat
  rx : List Nat
deriving DecidableEq, Repr

/-- What a successful `malloc(n)` returns: an address, and the bytes (or descriptors) that
happen to be in the block. -/
structure Block (α : Type) where
  addr : Nat
  prior : Nat → α

/-- The uninitialised contents of a block of `n` units. -/
def Block.contents {α : Type} (b : Block α) (n : Nat) : List α :=
  (List.range n).map b.prior

/-- The body of the `for` loop of `loop` (source lines 166-171) at index `i`. -/
def loop_fill_step (speed ch : Int) (txp rxp : Nat) (s : Bufs) (i : Nat) : Bufs :=
  { tx := s.tx.set (i * 4) (to_uchar (command_byte ch)),
    tr := s.tr.set i
      { (s.tr.getD i zero_transfer) with
        tx_buf := txp + i * 4,
        rx_buf := rxp + i * 4,
        len := 3,
        speed_hz := to_u32 speed,
        cs_change := 1 },
    rx := s.rx }

/-- The statement `tr[blocks-1].cs_change = 0` (source line 176). -/
def loop_unset_last (blocks : Nat) (s : Bufs) : Bufs :=
  { tr := s.tr.set (blocks - 1)
      { (s.tr.getD (blocks - 1) zero_transfer) with cs_change := 0 },
    tx := s.tx,
    rx := s.rx }

/-- The loop `for (i = 0; i < k; i++)` around `loop_fill_step`. -/
def loop_fill (speed ch : Int) (txp rxp : Nat) (s : Bufs) (k : Nat) : Bufs :=
  (List.range k).foldl (loop_fill_step speed ch txp rxp) s

/-- The builder part of `loop` (source lines 161-176), run on the three freshly allocated
blocks: the three `memset` calls, the `for` loop, and the reset of the last `cs_change`.
The block for `tr` holds `blocks` descriptors; those for `tx` and `rx` hold `blocks * 4`
bytes. -/
def loop_build (speed : Int) (blocks : Nat) (ch : Int)
    (mtr : Block spi_ioc_transfer) (mtx mrx : Block Nat) : Bufs :=
  let tr := memset (mtr.contents blocks) zero_transfer blocks
  let tx := memset ((mtx.contents (blocks * 4)).map (· % 256)) 0 blocks
  let rx := memset ((mrx.contents (blocks * 4)).map (· % 256)) 0 blocks
  let s := loop_fill speed ch mtx.addr mrx.addr { tr := tr, tx := tx, rx := rx } blocks
  loop_unset_last blocks s

/-- The fields the `for` loop of `loop` writes into descriptor `i`, on top of `d`. -/
def filled (speed : Int) (txp rxp i : Nat) (d : spi_ioc_transfer) : spi_ioc_transfer :=
  { d with tx_buf := txp + i * 4, rx_buf := rxp + i * 4, len := 3,
           speed_hz := to_u32 speed, cs_change := 1 }

/-! ## `dump` -/

/-- The value `dump` computes for the slot starting at offset `j` of `rx`:
`(rx[j+1] << 2) + (rx[j+2] >> 6)`, the operands promoted from `unsigned char` to `int`. -/
def dump_val (rx : List Nat) (j : Nat) : Nat :=
  (rx.getD (j + 1) 0 <<< 2) + (rx.getD (j + 2) 0 >>> 6)

/-- The `for (i = 0, j = 0; i < blocks; i++, j += 4)` loop of `dump`, with `n` iterations
left: the lines `"%03d: %d\n"` it prints, each as the pair `(i, val)`. -/
def dump_from (rx : List Nat) : Nat → Nat → Nat → List (Nat × Nat)
  | 0, _, _ => []
  | n + 1, i, j => (i, dump_val rx j) :: dump_from rx n (i + 1) (j + 4)

/-- The function `dump(blocks, rx)`: the lines it prints between the header and the blank
line. -/
def dump (blocks : Nat) (rx : List Nat) : List (Nat × Nat) :=
  dump_from rx blocks 0 0

/-! ## `double`

The arithmetic of `show_elapsed` is that of C `double`, IEEE 754 binary64 with the default
rounding: every conversion from an integer, every division and every addition returns the
representable value nearest to the exact result, ties going to the even significand. -/

/-- The `struct timeval` of `<sys/time.h>`. -/
structure timeval where
  tv_sec : Int
  tv_usec : Int
deriving DecidableEq, Repr

/-- A finite value of type `double`: the number `m * 2 ^ e`.  Every value the operations
below return is zero (`m = 0`, `e = 0`) or has a significand of 53 bits
(`2 ^ 52 ≤ |m| < 2 ^ 53`).  The exponent is not bounded, so infinities, NaN and subnormal
numbers do not occur, and the two zeros of binary64 are one value. -/
structure double where
  m : Int
  e : Int
deriving DecidableEq, Repr

/-- The rational number a `double` stands for. -/
def double.toRat (x : double) : ℚ := (x.m : ℚ) * (2 : ℚ) ^ x.e

/-- The literal `0.0`. -/
def double.zero : double := { m := 0, e := 0 }

/-- The unit roundoff of binary64, `2 ^ (-53)`. -/
def unit_roundoff : ℚ := 1 / 2 ^ 53

/-- The integer logarithm to base 2, by repeated halving (`fuel` bounds the halvings). -/
def log2_fuel : Nat → Nat → Nat
  | 0, _ => 0
  | f + 1, n => if 2 ≤ n then log2_fuel f (n / 2) + 1 else 0

/-- The position of the leading bit of `n`: `2 ^ ilog2 n ≤ n < 2 ^ (ilog2 n + 1)`. -/
def ilog2 (n : Nat) : Nat := log2_fuel n n

/-- The exponent of the leading bit of the quotient `a / q`:
`2 ^ quot_exp a q ≤ a / q < 2 ^ (quot_exp a q + 1)`. -/
def quot_exp (a q : Nat) : Int :=
  let l : Int := (ilog2 a : Int) - (ilog2 q : Int)
  if q * 2 ^ l.toNat ≤ a * 2 ^ (-l).toNat then l else l - 1

/-- The integer nearest to `n / d`, a tie going to the even one. -/
def round_half_even (n d : Nat) : Nat :=
  if 2 * (n % d) < d then n / d
  else if d < 2 * (n % d) then n / d + 1
  else if (n / d) % 2 = 0 then n / d else n / d + 1

/-- The `double` nearest to the exact number `p / q * 2 ^ s` (with `q ≠ 0`), ties to even:
the quotient is scaled by a power of two into `[2 ^ 52, 2 ^ 53)`, rounded to an integer, and
scaled back. -/
def round_quot (p : Int) (q : Nat) (s : Int) : double :=
  if p = 0 then { m := 0, e := 0 }
  else
    let k : Int := quot_exp p.natAbs q - 52
    let m := round_half_even (p.natAbs * 2 ^ (-k).toNat) (q * 2 ^ k.toNat)
    if m = 2 ^ 53 then { m := p.sign * 2 ^ 52, e := k + 1 + s }
    else { m := p.sign * (m : Int), e := k + s }

/-- The conversion `(double) x` of an integer. -/
def of_int (x : Int) : double := round_quot x 1 0

/-- The sum `a + b` of two `double` values. -/
def dadd (a b : double) : double :=
  let e0 := min a.e b.e
  round_quot (a.m * 2 ^ (a.e - e0).toNat + b.m * 2 ^ (b.e - e0).toNat) 1 e0

/-- The quotient `a / b` of two `double` values; `none` stands for a division by zero. -/
def fdiv (a b : double) : Option double :=
  if b.m = 0 then none
  else some (round_quot (a.m * b.m.sign) b.m.natAbs (a.e - b.e))

/-! ## `show_elapsed` -/

/-- What `show_elapsed` leaves behind: the two structures its pointer arguments point to,
as they are when it returns, and the three values it passes to `printf`. -/
structure Summary where
  start : timeval
  endt : timeval
  diff : double
  count : Int
  rate : double
deriving DecidableEq, Repr

/-- The function `show_elapsed(start, end, count)`.  The parameter `endt` is the source's
`end`.  The result is `none` when a division by zero is performed. -/
def show_elapsed (start endt : timeval) (count : Int) : Option Summary :=
  let usec : double × timeval :=
    if endt.tv_usec > start.tv_usec then
      (of_int (endt.tv_usec - start.tv_usec), endt)
    else
      (of_int ((1000000 + endt.tv_usec) - start.tv_usec),
        { endt with tv_sec := endt.tv_sec - 1 })
  match fdiv usec.1 (of_int 1000000) with
  | none => none
  | some d =>
    let diff : double := dadd d (of_int (usec.2.tv_sec - start.tv_sec))
    let rate : Option double :=
      if diff.m > 0 then fdiv (of_int count) diff else some double.zero
    match rate with
    | none => none
    | some r => some { start := start, endt := usec.2, diff := diff, count := count, rate := r }

/-! ## `loop` -/

/-- The three heap blocks of `loop`. -/
inductive Buf where
  | tr
  | tx
  | rx
deriving DecidableEq, Repr

/-- The library and system calls of `loop` that acquire, use or release a resource, with
their outcome. -/
inductive Call where
  | malloc (b : Buf) (ok : Bool)
  | open_dev (ret : Int)
  | ioctl (ret : Int)
  | close (fd : Int)
  | free (b : Buf)
deriving DecidableEq, Repr

/-- What `loop` meets at run time: the outcome of the three `malloc` calls and of `open`,
the value of the global `abort_read` at each evaluation of the `while` condition
(`abort_read n` is what the loop reads after `n` successful submissions), the return value
of the `n`-th `ioctl` and what it does to `rx`, and the global `verbose`. -/
structure Env where
  malloc_tr : Option (Block spi_ioc_transfer)
  malloc_tx : Option (Block Nat)
  malloc_rx : Option (Block Nat)
  open_ret : Int
  abort_read : Nat → Bool
  ioctl_ret : Nat → Int
  ioctl_rx : Nat → List Nat → List Nat
  verbose : Bool

/-- Arithmetic of `int`: the result of an addition reduced to 32 bits, two's complement. -/
def wrap_int (x : Int) : Int :=
  (x + 2147483648) % 4294967296 - 2147483648

/-- What `loop` returns, with the calls it made, the batch it built and the lines `dump`
printed (when it was called). -/
structure LoopResult where
  count : Int
  calls : List Call
  batch : Option Bufs
  dumped : Option (List (Nat × Nat))
deriving DecidableEq, Repr

/-- The `while (!abort_read)` loop of `loop` after `n` successful submissions.  The result
is `none` when the fuel runs out; otherwise the flag says whether the loop ended at its
condition (`true`) or at `goto loop_done` after a failed `ioctl` (`false`). -/
def loop_while (env : Env) (blocks : Nat) :
    Nat → Nat → Int → List Nat → List Call → Option (Bool × Int × List Nat × List Call)
  | 0, _, _, _, _ => none
  | fuel + 1, n, count, rx, calls =>
    if env.abort_read n then some (true, count, rx, calls)
    else if env.ioctl_ret n < 0 then
      some (false, count, rx, calls ++ [Call.ioctl (env.ioctl_ret n)])
    else
      loop_while env blocks fuel (n + 1) (wrap_int (count + blocks)) (env.ioctl_rx n rx)
        (calls ++ [Call.ioctl (env.ioctl_ret n)])

/-- The code after the label `loop_done`: the four guarded releases, then `return count`.
The flags `tr`, `tx`, `rx` say whether the pointer is non-null. -/
def loop_done (fd : Int) (tr tx rx : Bool) (count : Int) (calls : List Call)
    (batch : Option Bufs) (dumped : Option (List (Nat × Nat))) : LoopResult :=
  let calls := if fd ≠ 0 then calls ++ [Call.close fd] else calls
  let calls := if rx then calls ++ [Call.free Buf.rx] else calls
  let calls := if tx then calls ++ [Call.free Buf.tx] else calls
  let calls := if tr then calls ++ [Call.free Buf.tr] else calls
  { count := count, calls := calls, batch := batch, dumped := dumped }

/-- The function `loop(speed, blocks, ch)` in the environment `env`.  The result is `none`
when the `while` loop is still running after `fuel` iterations. -/
def loop (env : Env) (fuel : Nat) (speed : Int) (blocks : Nat) (ch : Int) :
    Option LoopResult :=
  match env.malloc_tr with
  | none => some (loop_done 0 false false false 0 [Call.malloc Buf.tr false] none none)
  | some mtr =>
    match env.malloc_tx with
    | none =>
      some (loop_done 0 true false false 0
        [Call.malloc Buf.tr true, Call.malloc Buf.tx false] none none)
    | some mtx =>
      match env.malloc_rx with
      | none =>
        some (loop_done 0 true true false 0
          [Call.malloc Buf.tr true, Call.malloc Buf.tx true, Call.malloc Buf.rx false]
          none none)
      | some mrx =>
        let b := loop_build speed blocks ch mtr mtx mrx
        let fd := env.open_ret
        let calls := [Call.malloc Buf.tr true, Call.malloc Buf.tx true,
          Call.malloc Buf.rx true, Call.open_dev fd]
        if fd < 0 then some (loop_done fd true true true 0 calls (some b) none)
        else
          match loop_while env blocks fuel 0 0 b.rx calls with
          | none => none
          | some (true, count, rx, calls) =>
            some (loop_done fd true true true count calls (some b)
              (if env.verbose then some (dump blocks rx) else none))
          | some (false, count, _, calls) =>
            some (loop_done fd true true true count calls (some b) none)

/-- A resource `loop` can hold: one of the heap blocks, or the descriptor `open` returned. -/
inductive Resource where
  | buf (b : Buf)
  | fd (n : Int)
deriving DecidableEq, Repr

/-- Whether a call acquires the resource: a `malloc` that succeeds, an `open` that returns
this descriptor and the descriptor is not negative. -/
def Call.acquires (c : Call) (r : Resource) : Bool :=
  match c, r with
  | Call.malloc b true, Resource.buf b1 => b = b1
  | Call.open_dev n, Resource.fd m => decide (0 ≤ n) && decide (n = m)
  | _, _ => false

/-- Whether a call releases the resource: `free` of the block, `close` of the descriptor. -/
def Call.releases (c : Call) (r : Resource) : Bool :=
  match c, r with
  | Call.free b, Resource.buf b1 => b = b1
  | Call.close n, Resource.fd m => n = m
  | _, _ => false

/-- How many times the calls acquire the resource. -/
def acquired (calls : List Call) (r : Resource) : Nat :=
  calls.countP (fun c => c.acquires r)

/-- How many times the calls release the resource. -/
def released (calls : List Call) (r : Resource) : Nat :=
  calls.countP (fun c => c.releases r)

/-! ## Sample environments -/

/-- A block whose prior contents are all-zero descriptors. -/
def stale_tr : Block spi_ioc_transfer := { addr := 4096, prior := fun _ => zero_transfer }

/-- A block at `addr` whose prior contents are all `0xFF` bytes. -/
def stale_bytes (addr : Nat) : Block Nat := { addr := addr, prior := fun _ => 0xFF }

/-- An environment in which the three allocations succeed, `open` returns `fd`, every
submission succeeds, and the stop flag is first seen set after `k` submissions. -/
def sample_env (fd : Int) (k : Nat) : Env :=
  { malloc_tr := some stale_tr,
    malloc_tx := some (stale_bytes 8192),
    malloc_rx := some (stale_bytes 12288),
    open_ret := fd,
    abort_read := fun n => decide (k ≤ n),
    ioctl_ret := fun _ => 0,
    ioctl_rx := fun _ rx => rx,
    verbose := false }

/-- An environment in which the three allocations succeed, `open` returns `fd`, the stop
flag is never set, the first `k` submissions succeed and the next one fails. -/
def failing_env (fd : Int) (k : Nat) : Env :=
  { malloc_tr := some stale_tr,
    malloc_tx := some (stale_bytes 8192),
    malloc_rx := some (stale_bytes 12288),
    open_ret := fd,
    abort_read := fun _ => false,
    ioctl_ret := fun n => if n < k then 0 else -1,
    ioctl_rx := fun _ rx => rx,
    verbose := false }

/-! # Theorems -/

/-! ## Lemmas on the buffers -/

theorem memset_length {α : Type} (buf : List α) (z : α) (n : Nat) :
    (memset buf z n).length = buf.length := by
  unfold memset
  simp only [List.length_append, List.length_replicate, List.length_drop]
  omega

theorem memset_getElem? {α : Type} (buf : List α) (z : α) (n i : Nat) :
    (memset buf z n)[i]? =
      if i < n then (if i < buf.length then some z else none) else buf[i]? := by
  unfold memset
  rw [List.getElem?_append]
  simp only [List.length_replicate]
  rcases Nat.le_total n buf.length with hle | hle
  · rw [Nat.min_eq_left hle, List.getElem?_drop]
    by_cases hn : i < n
    · have hl : i < buf.length := by omega
      simp [hn, hl]
    · rw [if_neg hn, if_neg hn]
      congr 1
      omega
  · rw [Nat.min_eq_right hle, List.getElem?_drop]
    by_cases hl : i < buf.length
    · have hn : i < n := by omega
      simp [hn, hl]
    · rw [if_neg hl]
      have e : buf[n + (i - buf.length)]? = none := List.getElem?_eq_none (by omega)
      have e2 : buf[i]? = none := List.getElem?_eq_none (by omega)
      rw [e, e2]
      simp [hl]

theorem contents_length {α : Type} (b : Block α) (n : Nat) : (b.contents n).length = n := by
  simp [Block.contents]

theorem contents_getElem? {α : Type} (b : Block α) (n i : Nat) (h : i < n) :
    (b.contents n)[i]? = some (b.prior i) := by
  simp [Block.contents, List.getElem?_range h]

theorem loop_fill_succ (speed ch : Int) (txp rxp : Nat) (s : Bufs) (k : Nat) :
    loop_fill speed ch txp rxp s (k + 1) =
      loop_fill_step speed ch txp rxp (loop_fill speed ch txp rxp s k) k := by
  simp [loop_fill, List.range_succ, List.foldl_append]

theorem fill_step_tr (speed ch : Int) (txp rxp : Nat) (s : Bufs) (k i : Nat) :
    (loop_fill_step speed ch txp rxp s k).tr[i]? =
      if i = k then (s.tr[i]?).map (filled speed txp rxp k) else s.tr[i]? := by
  simp only [loop_fill_step, List.getElem?_set']
  by_cases h : k = i
  · subst h
    cases hk : s.tr[k]? with
    | none => simp
    | some d => simp [filled, List.getD_eq_getElem?_getD, hk]
  · have h2 : ¬ i = k := fun e => h e.symm
    simp [h, h2]

theorem fill_step_tx (speed ch : Int) (txp rxp : Nat) (s : Bufs) (k j : Nat) :
    (loop_fill_step speed ch txp rxp s k).tx[j]? =
      if j = k * 4 then (s.tx[j]?).map (fun _ => to_uchar (command_byte ch)) else s.tx[j]? := by
  simp only [loop_fill_step, List.getElem?_set']
  by_cases h : k * 4 = j
  · subst h
    cases hk : s.tx[k * 4]? <;> simp
  · have h2 : ¬ j = k * 4 := fun e => h e.symm
    simp [h, h2]

theorem loop_fill_rx (speed ch : Int) (txp rxp : Nat) (s : Bufs) (k : Nat) :
    (loop_fill speed ch txp rxp s k).rx = s.rx := by
  induction k with
  | zero => rfl
  | succ k ih => rw [loop_fill_succ]; exact ih

theorem loop_fill_tr (speed ch : Int) (txp rxp : Nat) (s : Bufs) (k i : Nat) :
    (loop_fill speed ch txp rxp s k).tr[i]? =
      if i < k then (s.tr[i]?).map (filled speed txp rxp i) else s.tr[i]? := by
  induction k with
  | zero => simp [loop_fill]
  | succ k ih =>
    rw [loop_fill_succ, fill_step_tr, ih]
    by_cases h1 : i = k
    · subst h1; simp
    · by_cases h2 : i < k
      · have h3 : i < k + 1 := by omega
        simp [h1, h2, h3]
      · have h3 : ¬ i < k + 1 := by omega
        simp [h1, h2, h3]

theorem loop_fill_tx (speed ch : Int) (txp rxp : Nat) (s : Bufs) (k j : Nat) :
    (loop_fill speed ch txp rxp s k).tx[j]? =
      if j % 4 = 0 ∧ j / 4 < k then (s.tx[j]?).map (fun _ => to_uchar (command_byte ch))
      else s.tx[j]? := by
  induction k with
  | zero => simp [loop_fill]
  | succ k ih =>
    rw [loop_fill_succ, fill_step_tx, ih]
    by_cases h1 : j = k * 4
    · have h3 : j % 4 = 0 ∧ j / 4 < k + 1 := by omega
      have h4 : ¬ (j % 4 = 0 ∧ j / 4 < k) := by omega
      simp [h1, h3, h4]
    · by_cases h2 : j % 4 = 0 ∧ j / 4 < k
      · have h3 : j % 4 = 0 ∧ j / 4 < k + 1 := by omega
        simp [h1, h2, h3]
      · have h3 : ¬ (j % 4 = 0 ∧ j / 4 < k + 1) := by omega
        simp [h1, h2, h3]

theorem loop_fill_tr_length (speed ch : Int) (txp rxp : Nat) (s : Bufs) (k : Nat) :
    (loop_fill speed ch txp rxp s k).tr.length = s.tr.length := by
  induction k with
  | zero => rfl
  | succ k ih => rw [loop_fill_succ]; simpa [loop_fill_step] using ih

theorem loop_fill_tx_length (speed ch : Int) (txp rxp : Nat) (s : Bufs) (k : Nat) :
    (loop_fill speed ch txp rxp s k).tx.length = s.tx.length := by
  induction k with
  | zero => rfl
  | succ k ih => rw [loop_fill_succ]; simpa [loop_fill_step] using ih

/-- Descriptor `i` of the batch `loop` builds. -/
theorem loop_build_tr (speed : Int) (blocks : Nat) (ch : Int)
    (mtr : Block spi_ioc_transfer) (mtx mrx : Block Nat) (i : Nat) (hi : i < blocks) :
    (loop_build speed blocks ch mtr mtx mrx).tr[i]? =
      some { filled speed mtx.addr mrx.addr i zero_transfer with
             cs_change := if i + 1 < blocks then 1 else 0 } := by
  have hget : ∀ j, j < blocks →
      (loop_fill speed ch mtx.addr mrx.addr
        { tr := memset (mtr.contents blocks) zero_transfer blocks,
          tx := memset ((mtx.contents (blocks * 4)).map (· % 256)) 0 blocks,
          rx := memset ((mrx.contents (blocks * 4)).map (· % 256)) 0 blocks } blocks).tr[j]? =
        some (filled speed mtx.addr mrx.addr j zero_transfer) := by
    intro j hj
    rw [loop_fill_tr, if_pos hj, memset_getElem?, if_pos hj, contents_length, if_pos hj]
    rfl
  simp only [loop_build, loop_unset_last, List.getElem?_set', List.getD_eq_getElem?_getD]
  by_cases h : blocks - 1 = i
  · have h2 : ¬ i + 1 < blocks := by omega
    rw [if_pos h, if_neg h2, h, hget i hi]
    rfl
  · have h2 : i + 1 < blocks := by omega
    rw [if_neg h, if_pos h2, hget i hi]
    rfl

theorem loop_build_tr_length (speed : Int) (blocks : Nat) (ch : Int)
    (mtr : Block spi_ioc_transfer) (mtx mrx : Block Nat) :
    (loop_build speed blocks ch mtr mtx mrx).tr.length = blocks := by
  simp [loop_build, loop_unset_last, loop_fill_tr_length, memset_length, contents_length]

theorem loop_build_tx_length (speed : Int) (blocks : Nat) (ch : Int)
    (mtr : Block spi_ioc_transfer) (mtx mrx : Block Nat) :
    (loop_build speed blocks ch mtr mtx mrx).tx.length = blocks * 4 := by
  simp [loop_build, loop_unset_last, loop_fill_tx_length, memset_length, contents_length]

theorem loop_build_rx_length (speed : Int) (blocks : Nat) (ch : Int)
    (mtr : Block spi_ioc_transfer) (mtx mrx : Block Nat) :
    (loop_build speed blocks ch mtr mtx mrx).rx.length = blocks * 4 := by
  simp [loop_build, loop_unset_last, loop_fill_rx, memset_length, contents_length]

/-- Byte `j` of the output buffer `loop` builds: the command byte at the start of a slot,
zero in the first `blocks` bytes, and what the block held before everywhere else. -/
theorem loop_build_tx (speed : Int) (blocks : Nat) (ch : Int)
    (mtr : Block spi_ioc_transfer) (mtx mrx : Block Nat) (j : Nat) (hj : j < blocks * 4) :
    (loop_build speed blocks ch mtr mtx mrx).tx[j]? =
      some (if j % 4 = 0 then to_uchar (command_byte ch)
            else if j < blocks then 0 else mtx.prior j % 256) := by
  have hlen : ((mtx.contents (blocks * 4)).map (· % 256)).length = blocks * 4 := by
    simp [contents_length]
  have hprior : ((mtx.contents (blocks * 4)).map (· % 256))[j]? = some (mtx.prior j % 256) := by
    simp [contents_getElem? mtx (blocks * 4) j hj]
  have hinit : (memset ((mtx.contents (blocks * 4)).map (· % 256)) 0 blocks)[j]? =
      some (if j < blocks then 0 else mtx.prior j % 256) := by
    rw [memset_getElem?, hlen, hprior]
    by_cases h : j < blocks <;> simp [h, hj]
  simp only [loop_build, loop_unset_last]
  rw [loop_fill_tx, hinit]
  by_cases h : j % 4 = 0
  · have h2 : j % 4 = 0 ∧ j / 4 < blocks := by omega
    simp [h]
    omega
  · have h2 : ¬ (j % 4 = 0 ∧ j / 4 < blocks) := by omega
    simp [h]

/-- Byte `j` of the input buffer `loop` builds: zero in the first `blocks` bytes, and what
the block held before everywhere else. -/
theorem loop_build_rx (speed : Int) (blocks : Nat) (ch : Int)
    (mtr : Block spi_ioc_transfer) (mtx mrx : Block Nat) (j : Nat) (hj : j < blocks * 4) :
    (loop_build speed blocks ch mtr mtx mrx).rx[j]? =
      some (if j < blocks then 0 else mrx.prior j % 256) := by
  have hlen : ((mrx.contents (blocks * 4)).map (· % 256)).length = blocks * 4 := by
    simp [contents_length]
  have hprior : ((mrx.contents (blocks * 4)).map (· % 256))[j]? = some (mrx.prior j % 256) := by
    simp [contents_getElem? mrx (blocks * 4) j hj]
  simp only [loop_build, loop_unset_last]
  rw [loop_fill_rx, memset_getElem?, hlen, hprior]
  by_cases h : j < blocks <;> simp [h, hj]

/-! ## The batch `loop` builds -/

theorem command_byte_eq (ch : Int) (h0 : 0 ≤ ch) (h7 : ch ≤ 7) :
    command_byte ch = 0x60 + 4 * ch := by
  interval_cases ch <;> decide

/-- C1: for a block count `blocks` in 1..1000, any channel and speed and any prior contents
of the allocated blocks, the batch `loop` builds has exactly `blocks` descriptors; every
descriptor at an index `i` with `i + 1 < blocks` has `cs_change = 1`, the descriptor at
index `blocks - 1` has `cs_change = 0`, and for `blocks = 1` the batch is a single
descriptor with `cs_change = 0`. -/
theorem loop_build_cs_change (speed : Int) (blocks : Nat) (ch : Int)
    (mtr : Block spi_ioc_transfer) (mtx mrx : Block Nat)
    (h1 : 1 ≤ blocks) (h2 : blocks ≤ 1000) :
    (loop_build speed blocks ch mtr mtx mrx).tr.length = blocks ∧
    (∀ i, i + 1 < blocks →
      ∃ d, (loop_build speed blocks ch mtr mtx mrx).tr[i]? = some d ∧ d.cs_change = 1) ∧
    (∃ d, (loop_build speed blocks ch mtr mtx mrx).tr[blocks - 1]? = some d ∧
      d.cs_change = 0) ∧
    (blocks = 1 →
      ∃ d, (loop_build speed blocks ch mtr mtx mrx).tr = [d] ∧ d.cs_change = 0) := by
  have _ := h2
  refine ⟨loop_build_tr_length speed blocks ch mtr mtx mrx, ?_, ?_, ?_⟩
  · intro i hi
    refine ⟨_, loop_build_tr speed blocks ch mtr mtx mrx i (by omega), ?_⟩
    simp [hi]
  · refine ⟨_, loop_build_tr speed blocks ch mtr mtx mrx (blocks - 1) (by omega), ?_⟩
    have h : ¬ blocks - 1 + 1 < blocks := by omega
    simp [h]
  · intro hb
    subst hb
    have hlen := loop_build_tr_length speed 1 ch mtr mtx mrx
    have hget := loop_build_tr speed 1 ch mtr mtx mrx 0 (by omega)
    match hl : (loop_build speed 1 ch mtr mtx mrx).tr with
    | [] => rw [hl] at hlen; simp at hlen
    | [d] =>
      rw [hl] at hget
      simp only [List.getElem?_cons_zero, Option.some.injEq] at hget
      exact ⟨d, rfl, by rw [hget]; simp⟩
    | _ :: _ :: _ => rw [hl] at hlen; simp at hlen

/-- C1 at `blocks = 3`, channel 5 and the default speed. -/
theorem loop_build_cs_change_witness :
    1 ≤ 3 ∧ 3 ≤ 1000 ∧
    ((loop_build 3600000 3 5 stale_tr (stale_bytes 8192) (stale_bytes 12288)).tr.length = 3 ∧
    (∀ i, i + 1 < 3 →
      ∃ d, (loop_build 3600000 3 5 stale_tr (stale_bytes 8192) (stale_bytes 12288)).tr[i]?
        = some d ∧ d.cs_change = 1) ∧
    (∃ d, (loop_build 3600000 3 5 stale_tr (stale_bytes 8192) (stale_bytes 12288)).tr[3 - 1]?
        = some d ∧ d.cs_change = 0) ∧
    (3 = 1 →
      ∃ d, (loop_build 3600000 3 5 stale_tr (stale_bytes 8192) (stale_bytes 12288)).tr = [d] ∧
        d.cs_change = 0)) :=
  ⟨by decide, by decide,
    loop_build_cs_change 3600000 3 5 stale_tr (stale_bytes 8192) (stale_bytes 12288)
      (by decide) (by decide)⟩

/-- C2: for a channel `ch` in 0..7, a block count in 1..1000 and a slot `i < blocks`, byte 0
of slot `i` of the output buffer `loop` builds (`tx[4*i]`) is `0x60 | (ch << 2)`, which is
`0x60 + 4*ch` and lies in 0..255, so the conversion to `unsigned char` truncates nothing. -/
theorem loop_build_command_byte (speed : Int) (blocks : Nat) (ch : Int)
    (mtr : Block spi_ioc_transfer) (mtx mrx : Block Nat)
    (hc0 : 0 ≤ ch) (hc7 : ch ≤ 7) (h1 : 1 ≤ blocks) (h2 : blocks ≤ 1000)
    (i : Nat) (hi : i < blocks) :
    (∃ b : Nat, (loop_build speed blocks ch mtr mtx mrx).tx[4 * i]? = some b ∧
      (b : Int) = Int.lor 0x60 (ch <<< (2 : Int)) ∧ (b : Int) = 0x60 + 4 * ch) ∧
    0 ≤ Int.lor 0x60 (ch <<< (2 : Int)) ∧ Int.lor 0x60 (ch <<< (2 : Int)) ≤ 255 := by
  have _ := h1
  have _ := h2
  have hcmd := command_byte_eq ch hc0 hc7
  have hfold : Int.lor 0x60 (ch <<< (2 : Int)) = command_byte ch := rfl
  rw [hfold, hcmd]
  refine ⟨⟨_, loop_build_tx speed blocks ch mtr mtx mrx (4 * i) (by omega), ?_⟩, by omega,
    by omega⟩
  have hmod : 4 * i % 4 = 0 := by omega
  rw [if_pos hmod, to_uchar, hcmd]
  omega

/-- C2 at channel 7, `blocks = 2` and slot 1: the byte is `0x7C`. -/
theorem loop_build_command_byte_witness :
    (0 : Int) ≤ 7 ∧ (7 : Int) ≤ 7 ∧ 1 ≤ 2 ∧ 2 ≤ 1000 ∧ 1 < 2 ∧
    ((∃ b : Nat,
      (loop_build 3600000 2 7 stale_tr (stale_bytes 8192) (stale_bytes 12288)).tx[4 * 1]?
        = some b ∧
      (b : Int) = Int.lor 0x60 ((7 : Int) <<< (2 : Int)) ∧ (b : Int) = 0x60 + 4 * 7) ∧
    0 ≤ Int.lor 0x60 ((7 : Int) <<< (2 : Int)) ∧
    Int.lor 0x60 ((7 : Int) <<< (2 : Int)) ≤ 255) :=
  ⟨by decide, by decide, by decide, by decide, by decide,
    loop_build_command_byte 3600000 2 7 stale_tr (stale_bytes 8192) (stale_bytes 12288)
      (by decide) (by decide) (by decide) (by decide) 1 (by decide)⟩

/-- C3, what the code does: with one block, channel 0 and blocks that held `0xFF` bytes
before, the output buffer `loop` builds is `60 FF FF FF` and the input buffer is
`00 FF FF FF`: `memset(tx, 0, blocks)` and `memset(rx, 0, blocks)` clear `blocks` bytes of
the `blocks * 4` allocated, and bytes 1-3 keep their prior contents. -/
theorem loop_build_stale_bytes :
    (loop_build 3600000 1 0 stale_tr (stale_bytes 8192) (stale_bytes 12288)).tx
      = [0x60, 0xFF, 0xFF, 0xFF] ∧
    (loop_build 3600000 1 0 stale_tr (stale_bytes 8192) (stale_bytes 12288)).rx
      = [0x00, 0xFF, 0xFF, 0xFF] := by
  decide

/-- For every block count, the bytes of `tx` and `rx` from offset `blocks` on that are not
the first byte of a slot are what the allocated block held before. -/
theorem loop_build_keeps_prior (speed : Int) (blocks : Nat) (ch : Int)
    (mtr : Block spi_ioc_transfer) (mtx mrx : Block Nat) (j : Nat)
    (hlo : blocks ≤ j) (hhi : j < blocks * 4) (hmod : j % 4 ≠ 0) :
    (loop_build speed blocks ch mtr mtx mrx).tx[j]? = some (mtx.prior j % 256) ∧
    (loop_build speed blocks ch mtr mtx mrx).rx[j]? = some (mrx.prior j % 256) := by
  have h : ¬ j < blocks := by omega
  rw [loop_build_tx speed blocks ch mtr mtx mrx j hhi,
    loop_build_rx speed blocks ch mtr mtx mrx j hhi]
  simp [h, hmod]

/-- C4: for a block count in 1..1000, a speed in the range of a non-negative `int` and an
index `i < blocks`, descriptor `i` of the batch `loop` builds has `tx_buf` at offset `4*i`
of the output buffer, `rx_buf` at offset `4*i` of the input buffer, `len = 3` and
`speed_hz = speed`; both buffers are `4 * blocks` bytes long, the region of each descriptor
lies inside its buffer, and the regions of two distinct descriptors do not overlap. -/
theorem loop_build_descriptor (speed : Int) (blocks : Nat) (ch : Int)
    (mtr : Block spi_ioc_transfer) (mtx mrx : Block Nat)
    (h1 : 1 ≤ blocks) (h2 : blocks ≤ 1000) (hs0 : 0 ≤ speed) (hs1 : speed ≤ 2147483647) :
    (loop_build speed blocks ch mtr mtx mrx).tx.length = 4 * blocks ∧
    (loop_build speed blocks ch mtr mtx mrx).rx.length = 4 * blocks ∧
    (∀ i, i < blocks →
      ∃ d, (loop_build speed blocks ch mtr mtx mrx).tr[i]? = some d ∧
        d.tx_buf = mtx.addr + 4 * i ∧ d.rx_buf = mrx.addr + 4 * i ∧ d.len = 3 ∧
        (d.speed_hz : Int) = speed ∧
        d.tx_buf + d.len ≤ mtx.addr + 4 * blocks ∧
        d.rx_buf + d.len ≤ mrx.addr + 4 * blocks) ∧
    (∀ (i j : Nat) (di dj : spi_ioc_transfer), i ≠ j →
      (loop_build speed blocks ch mtr mtx mrx).tr[i]? = some di →
      (loop_build speed blocks ch mtr mtx mrx).tr[j]? = some dj →
      (di.tx_buf + di.len ≤ dj.tx_buf ∨ dj.tx_buf + dj.len ≤ di.tx_buf) ∧
      (di.rx_buf + di.len ≤ dj.rx_buf ∨ dj.rx_buf + dj.len ≤ di.rx_buf)) := by
  have _ := h1
  have _ := h2
  have hspeed : (to_u32 speed : Int) = speed := by
    unfold to_u32
    omega
  refine ⟨?_, ?_, ?_, ?_⟩
  · rw [loop_build_tx_length]; omega
  · rw [loop_build_rx_length]; omega
  · intro i hi
    refine ⟨_, loop_build_tr speed blocks ch mtr mtx mrx i hi, ?_⟩
    refine ⟨?_, ?_, rfl, hspeed, ?_, ?_⟩ <;> simp only [filled] <;> omega
  · intro i j di dj hij hdi hdj
    have hlen := loop_build_tr_length speed blocks ch mtr mtx mrx
    have hi : i < blocks := by
      by_contra hc
      rw [List.getElem?_eq_none (by omega)] at hdi
      exact Option.noConfusion hdi
    have hj : j < blocks := by
      by_contra hc
      rw [List.getElem?_eq_none (by omega)] at hdj
      exact Option.noConfusion hdj
    rw [loop_build_tr speed blocks ch mtr mtx mrx i hi] at hdi
    rw [loop_build_tr speed blocks ch mtr mtx mrx j hj] at hdj
    cases hdi
    cases hdj
    simp only [filled]
    omega

/-- C4 at `blocks = 2` and the default speed, with the two descriptors written out. -/
theorem loop_build_descriptor_witness :
    1 ≤ 2 ∧ 2 ≤ 1000 ∧ (0 : Int) ≤ 3600000 ∧ (3600000 : Int) ≤ 2147483647 ∧
    (loop_build 3600000 2 0 stale_tr (stale_bytes 8192) (stale_bytes 12288)).tr.map
      (fun d => (d.tx_buf, d.rx_buf, d.len, d.speed_hz))
      = [(8192, 12288, 3, 3600000), (8196, 12292, 3, 3600000)] ∧
    (∀ i, i < 2 →
      ∃ d, (loop_build 3600000 2 0 stale_tr (stale_bytes 8192) (stale_bytes 12288)).tr[i]?
          = some d ∧
        d.tx_buf = (stale_bytes 8192).addr + 4 * i ∧
        d.rx_buf = (stale_bytes 12288).addr + 4 * i ∧ d.len = 3 ∧
        (d.speed_hz : Int) = 3600000 ∧
        d.tx_buf + d.len ≤ (stale_bytes 8192).addr + 4 * 2 ∧
        d.rx_buf + d.len ≤ (stale_bytes 12288).addr + 4 * 2) :=
  ⟨by decide, by decide, by decide, by decide, by decide,
    (loop_build_descriptor 3600000 2 0 stale_tr (stale_bytes 8192) (stale_bytes 12288)
      (by decide) (by decide) (by decide) (by decide)).2.2.1⟩

/-! ## `dump` -/

theorem dump_from_getElem? (rx : List Nat) (n i0 j0 i : Nat) (hi : i < n) :
    (dump_from rx n i0 j0)[i]? = some (i0 + i, dump_val rx (j0 + 4 * i)) := by
  induction n generalizing i0 j0 i with
  | zero => omega
  | succ n ih =>
    cases i with
    | zero => simp [dump_from]
    | succ i =>
      simp only [dump_from, List.getElem?_cons_succ]
      rw [ih (i0 + 1) (j0 + 4) i (by omega)]
      congr 2
      · omega
      · congr 1
        omega

theorem dump_val_eq (rx : List Nat) (j : Nat) :
    dump_val rx j = 4 * rx.getD (j + 1) 0 + rx.getD (j + 2) 0 / 64 := by
  simp only [dump_val, Nat.shiftLeft_eq, Nat.shiftRight_eq_div_pow]
  omega

/-- C5: for a slot `i < blocks` of an input buffer of bytes (each below 256) that holds the
slot, with bytes `b0`, `b1`, `b2` at offsets `4*i`, `4*i+1`, `4*i+2`, line `i` of what
`dump` prints carries the value `(b1 << 2) + (b2 >> 6) = 4*b1 + b2/64`; the value is at most
1023; and it is the same for any other buffer that has the same `b1` and the same `b2/64` in
that slot, whatever its `b0` and the low 6 bits of its `b2`. -/
theorem dump_decodes (blocks : Nat) (rx : List Nat) (i : Nat)
    (hi : i < blocks) (hlen : 4 * blocks ≤ rx.length) (hbyte : ∀ b ∈ rx, b < 256) :
    (∃ b0 b1 b2 v : Nat,
      rx[4 * i]? = some b0 ∧ rx[4 * i + 1]? = some b1 ∧ rx[4 * i + 2]? = some b2 ∧
      (dump blocks rx)[i]? = some (i, v) ∧
      v = (b1 <<< 2) + (b2 >>> 6) ∧ v = 4 * b1 + b2 / 64 ∧ v ≤ 1023) ∧
    (∀ rx2 : List Nat, rx2[4 * i + 1]? = rx[4 * i + 1]? →
      (rx2[4 * i + 2]?).map (· / 64) = (rx[4 * i + 2]?).map (· / 64) →
      (dump blocks rx2)[i]? = (dump blocks rx)[i]?) := by
  have h0 : 4 * i < rx.length := by omega
  have h1 : 4 * i + 1 < rx.length := by omega
  have h2 : 4 * i + 2 < rx.length := by omega
  have hd : ∀ l : List Nat, (dump blocks l)[i]? = some (i, dump_val l (4 * i)) := by
    intro l
    unfold dump
    rw [dump_from_getElem? l blocks 0 0 i hi]
    simp
  constructor
  · refine ⟨rx[4 * i], rx[4 * i + 1], rx[4 * i + 2], dump_val rx (4 * i),
      List.getElem?_eq_getElem h0, List.getElem?_eq_getElem h1, List.getElem?_eq_getElem h2,
      hd rx, ?_, ?_, ?_⟩
    · simp [dump_val, List.getD_eq_getElem?_getD, List.getElem?_eq_getElem h1,
        List.getElem?_eq_getElem h2]
    · rw [dump_val_eq]
      simp [List.getD_eq_getElem?_getD, List.getElem?_eq_getElem h1,
        List.getElem?_eq_getElem h2]
    · rw [dump_val_eq]
      have hb1 : rx[4 * i + 1] < 256 := hbyte _ (List.getElem_mem h1)
      have hb2 : rx[4 * i + 2] < 256 := hbyte _ (List.getElem_mem h2)
      simp only [List.getD_eq_getElem?_getD, List.getElem?_eq_getElem h1,
        List.getElem?_eq_getElem h2, Option.getD_some]
      omega
  · intro rx2 e1 e2
    rw [hd rx2, hd rx, dump_val_eq, dump_val_eq]
    simp only [List.getD_eq_getElem?_getD, e1]
    rw [List.getElem?_eq_getElem h2] at e2 ⊢
    cases h : rx2[4 * i + 2]? with
    | none => rw [h] at e2; simp at e2
    | some c =>
      rw [h] at e2
      simp only [Option.map_some', Option.some.injEq] at e2
      simp [e2]

/-- C5 on the one-slot buffer `00 AB C0 00`, which decodes to
687, together with a buffer that differs in `b0` and in the low 6 bits of `b2`. -/
theorem dump_decodes_witness :
    0 < 1 ∧ 4 * 1 ≤ [0x00, 0xAB, 0xC0, 0x00].length ∧
    (∀ b ∈ [0x00, 0xAB, 0xC0, 0x00], b < 256) ∧
    dump 1 [0x00, 0xAB, 0xC0, 0x00] = [(0, 687)] ∧
    dump 1 [0xFF, 0xAB, 0xFF, 0x00] = [(0, 687)] ∧
    (∃ b0 b1 b2 v : Nat,
      [0x00, 0xAB, 0xC0, 0x00][4 * 0]? = some b0 ∧
      [0x00, 0xAB, 0xC0, 0x00][4 * 0 + 1]? = some b1 ∧
      [0x00, 0xAB, 0xC0, 0x00][4 * 0 + 2]? = some b2 ∧
      (dump 1 [0x00, 0xAB, 0xC0, 0x00])[0]? = some (0, v) ∧
      v = (b1 <<< 2) + (b2 >>> 6) ∧ v = 4 * b1 + b2 / 64 ∧ v ≤ 1023) :=
  ⟨by decide, by decide, by decide, by decide, by decide,
    (dump_decodes 1 [0x00, 0xAB, 0xC0, 0x00] 0 (by decide) (by decide) (by decide)).1⟩

/-! ## Rounding to `double` -/

theorem log2_fuel_bounds (f : Nat) : ∀ n, n ≤ f → n ≠ 0 →
    2 ^ log2_fuel f n ≤ n ∧ n < 2 ^ (log2_fuel f n + 1) := by
  induction f with
  | zero => intro n h0 h1; omega
  | succ f ih =>
    intro n hn h0
    unfold log2_fuel
    by_cases h2 : 2 ≤ n
    · rw [if_pos h2]
      have hh := ih (n / 2) (by omega) (by omega)
      rw [pow_succ, pow_succ]
      omega
    · rw [if_neg h2]
      have : n = 1 := by omega
      subst this
      simp

theorem ilog2_le (n : Nat) (h : n ≠ 0) : 2 ^ ilog2 n ≤ n :=
  (log2_fuel_bounds n n (Nat.le_refl n) h).1

theorem lt_ilog2 (n : Nat) (h : n ≠ 0) : n < 2 ^ (ilog2 n + 1) :=
  (log2_fuel_bounds n n (Nat.le_refl n) h).2

theorem two_zpow_pos (k : Int) : (0 : ℚ) < (2 : ℚ) ^ k := zpow_pos (by norm_num) k

theorem two_zpow_toNat (k : Int) :
    ((2 : ℚ) ^ k.toNat) = (2 : ℚ) ^ k * (2 : ℚ) ^ (-k).toNat := by
  rcases le_total 0 k with h | h
  · have h1 : (-k).toNat = 0 := Int.toNat_eq_zero.mpr (by omega)
    rw [h1, pow_zero, mul_one, ← zpow_natCast, Int.toNat_of_nonneg h]
  · have h1 : k.toNat = 0 := Int.toNat_eq_zero.mpr h
    have h2 : (((-k).toNat : Nat) : Int) = -k := Int.toNat_of_nonneg (by omega)
    rw [h1, pow_zero, ← zpow_natCast, h2, ← zpow_add₀ (by norm_num : (2 : ℚ) ≠ 0)]
    simp

theorem quot_exp_le (a q : Nat) (ha : a ≠ 0) (hq : q ≠ 0) :
    (2 : ℚ) ^ quot_exp a q * (q : ℚ) ≤ (a : ℚ) := by
  have hqpos : (0 : ℚ) < q := by exact_mod_cast Nat.pos_of_ne_zero hq
  unfold quot_exp
  simp only
  split
  · rename_i h
    have hc : (q : ℚ) * (2 : ℚ) ^ ((ilog2 a : Int) - (ilog2 q : Int)).toNat ≤
        (a : ℚ) * (2 : ℚ) ^ (-((ilog2 a : Int) - (ilog2 q : Int))).toNat := by
      exact_mod_cast h
    rw [two_zpow_toNat] at hc
    have hp := pow_pos (by norm_num : (0 : ℚ) < 2) (-((ilog2 a : Int) - (ilog2 q : Int))).toNat
    have hc2 : ((2 : ℚ) ^ ((ilog2 a : Int) - (ilog2 q : Int)) * q) *
        (2 : ℚ) ^ (-((ilog2 a : Int) - (ilog2 q : Int))).toNat ≤
        (a : ℚ) * (2 : ℚ) ^ (-((ilog2 a : Int) - (ilog2 q : Int))).toNat := by
      linarith
    exact le_of_mul_le_mul_right hc2 hp
  · have h1 : ((2 : ℚ) ^ (ilog2 a)) ≤ (a : ℚ) := by exact_mod_cast ilog2_le a ha
    have h2 : (q : ℚ) < (2 : ℚ) ^ (ilog2 q + 1) := by exact_mod_cast lt_ilog2 q hq
    have h3 : (2 : ℚ) ^ ((ilog2 a : Int) - (ilog2 q : Int) - 1) * (2 : ℚ) ^ (ilog2 q + 1)
        = (2 : ℚ) ^ (ilog2 a) := by
      rw [← zpow_natCast, ← zpow_natCast, ← zpow_add₀ (by norm_num : (2 : ℚ) ≠ 0)]
      congr 1
      push_cast
      ring
    have hp := two_zpow_pos ((ilog2 a : Int) - (ilog2 q : Int) - 1)
    calc (2 : ℚ) ^ ((ilog2 a : Int) - (ilog2 q : Int) - 1) * (q : ℚ)
        ≤ (2 : ℚ) ^ ((ilog2 a : Int) - (ilog2 q : Int) - 1) * (2 : ℚ) ^ (ilog2 q + 1) :=
          mul_le_mul_of_nonneg_left (le_of_lt h2) (le_of_lt hp)
      _ = (2 : ℚ) ^ (ilog2 a) := h3
      _ ≤ a := h1

theorem round_half_even_err (n d : Nat) (hd : 0 < d) :
    |(round_half_even n d : ℚ) * d - n| ≤ (d : ℚ) / 2 := by
  have hq : (n : ℚ) = (d : ℚ) * ((n / d : Nat) : ℚ) + ((n % d : Nat) : ℚ) := by
    exact_mod_cast (Nat.div_add_mod n d).symm
  have hr : ((n % d : Nat) : ℚ) < d := by exact_mod_cast Nat.mod_lt n hd
  have hr0 : (0 : ℚ) ≤ ((n % d : Nat) : ℚ) := by exact_mod_cast Nat.zero_le _
  rw [abs_le]
  unfold round_half_even
  split
  · rename_i h
    have h2 : (2 : ℚ) * ((n % d : Nat) : ℚ) < d := by exact_mod_cast h
    constructor <;> nlinarith
  · rename_i h
    split
    · rename_i h1
      have h2 : (d : ℚ) < (2 : ℚ) * ((n % d : Nat) : ℚ) := by exact_mod_cast h1
      push_cast
      constructor <;> nlinarith
    · rename_i h1
      have h2 : (2 : ℚ) * ((n % d : Nat) : ℚ) = d := by
        have : 2 * (n % d) = d := by omega
        exact_mod_cast this
      split
      · constructor <;> nlinarith
      · push_cast
        constructor <;> nlinarith


theorem round_quot_zero (q : Nat) (s : Int) : (round_quot 0 q s).toRat = 0 := by
  simp [round_quot, double.toRat]

theorem round_quot_err (p : Int) (q : Nat) (s : Int) (hq : q ≠ 0) :
    |(round_quot p q s).toRat - (p : ℚ) / q * (2 : ℚ) ^ s| ≤
      unit_roundoff * |(p : ℚ) / q * (2 : ℚ) ^ s| := by
  by_cases hp : p = 0
  · subst hp
    rw [round_quot_zero]
    simp
  have ha : p.natAbs ≠ 0 := Int.natAbs_ne_zero.mpr hp
  have hqpos : (0 : ℚ) < q := by exact_mod_cast Nat.pos_of_ne_zero hq
  have hapos : (0 : ℚ) < (p.natAbs : ℚ) := by exact_mod_cast Nat.pos_of_ne_zero ha
  have h2 : (2 : ℚ) ≠ 0 := by norm_num
  obtain ⟨k, hk⟩ : ∃ k : Int, k = quot_exp p.natAbs q - 52 := ⟨_, rfl⟩
  obtain ⟨n, hn⟩ : ∃ n : Nat, n = p.natAbs * 2 ^ (-k).toNat := ⟨_, rfl⟩
  obtain ⟨d, hd⟩ : ∃ d : Nat, d = q * 2 ^ k.toNat := ⟨_, rfl⟩
  obtain ⟨m, hm⟩ : ∃ m : Nat, m = round_half_even n d := ⟨_, rfl⟩
  have hdpos : 0 < d := by
    rw [hd]; exact Nat.mul_pos (Nat.pos_of_ne_zero hq) (Nat.pos_pow_of_pos _ (by decide))
  have hdq : (0 : ℚ) < d := by exact_mod_cast hdpos
  have herr := round_half_even_err n d hdpos
  rw [← hm] at herr
  -- the value returned
  have hval : (round_quot p q s).toRat = (p.sign : ℚ) * m * (2 : ℚ) ^ (k + s) := by
    unfold round_quot
    rw [if_neg hp]
    simp only [← hk, ← hn, ← hd, ← hm]
    split
    · rename_i h53
      simp only [double.toRat]
      rw [h53, show k + 1 + s = 1 + (k + s) by ring, zpow_add₀ h2]
      push_cast
      ring
    · simp only [double.toRat]
      push_cast
      ring
  -- the exact value
  have hpq : (p : ℚ) = (p.sign : ℚ) * (p.natAbs : ℚ) := by
    have h : ((p.sign * (p.natAbs : Int) : Int) : ℚ) = (p : ℚ) := by
      rw [Int.sign_mul_natAbs]
    rw [← h]
    simp only [Int.cast_mul, Int.cast_natCast]
  have hnd : (n : ℚ) = (p.natAbs : ℚ) / q * (2 : ℚ) ^ (-k) * d := by
    rw [hn, hd]
    push_cast
    rw [two_zpow_toNat k, zpow_neg]
    field_simp
    ring
  have hkk : (2 : ℚ) ^ (-k) * (2 : ℚ) ^ (k + s) = (2 : ℚ) ^ s := by
    rw [← zpow_add₀ h2]; congr 1; ring
  have hx : (p : ℚ) / q * (2 : ℚ) ^ s =
      (p.sign : ℚ) * ((n : ℚ) / d) * (2 : ℚ) ^ (k + s) := by
    rw [hnd, ← hkk, hpq]
    field_simp
    ring
  have hsign : |(p.sign : ℚ)| = 1 := by
    rcases lt_trichotomy p 0 with h | h | h
    · rw [Int.sign_eq_neg_one_of_neg h]; simp
    · exact absurd h hp
    · rw [Int.sign_eq_one_of_pos h]; simp
  have hpow := two_zpow_pos (k + s)
  have hdiff : (round_quot p q s).toRat - (p : ℚ) / q * (2 : ℚ) ^ s =
      (p.sign : ℚ) * (((m : ℚ) * d - n) / d) * (2 : ℚ) ^ (k + s) := by
    rw [hval, hx]
    field_simp
    ring
  have habs1 : |(round_quot p q s).toRat - (p : ℚ) / q * (2 : ℚ) ^ s| ≤
      (2 : ℚ) ^ (k + s) / 2 := by
    rw [hdiff, abs_mul, abs_mul, hsign, one_mul, abs_div, abs_of_pos hdq, abs_of_pos hpow]
    have : |(m : ℚ) * d - n| / d ≤ 1 / 2 := by
      rw [div_le_iff₀ hdq]
      linarith
    nlinarith
  -- the lower bound on the magnitude of the exact value
  have hlow := quot_exp_le p.natAbs q ha hq
  have hmag : (2 : ℚ) ^ (k + s) * 2 ^ 52 ≤ |(p : ℚ) / q * (2 : ℚ) ^ s| := by
    have hsp := two_zpow_pos s
    rw [abs_mul, abs_div, abs_of_pos hqpos, abs_of_pos hsp, hpq, abs_mul, hsign, one_mul,
      abs_of_pos hapos]
    have hk2 : (2 : ℚ) ^ (k + s) * 2 ^ 52 = (2 : ℚ) ^ quot_exp p.natAbs q * (2 : ℚ) ^ s := by
      rw [hk, ← zpow_natCast, ← zpow_add₀ h2, ← zpow_add₀ h2]
      congr 1
      push_cast
      ring
    rw [hk2]
    have : (2 : ℚ) ^ quot_exp p.natAbs q ≤ (p.natAbs : ℚ) / q := by
      rw [le_div_iff₀ hqpos]; exact hlow
    exact mul_le_mul_of_nonneg_right this (le_of_lt hsp)
  unfold unit_roundoff
  calc |(round_quot p q s).toRat - (p : ℚ) / q * (2 : ℚ) ^ s|
      ≤ (2 : ℚ) ^ (k + s) / 2 := habs1
    _ = 1 / 2 ^ 53 * ((2 : ℚ) ^ (k + s) * 2 ^ 52) := by ring
    _ ≤ 1 / 2 ^ 53 * |(p : ℚ) / q * (2 : ℚ) ^ s| :=
        mul_le_mul_of_nonneg_left hmag (by positivity)


theorem quot_exp_lt (a q : Nat) (ha : a ≠ 0) (hq : q ≠ 0) :
    (a : ℚ) < (2 : ℚ) ^ (quot_exp a q + 1) * (q : ℚ) := by
  have h2 : (2 : ℚ) ≠ 0 := by norm_num
  unfold quot_exp
  simp only
  split
  · have h1 : (a : ℚ) < (2 : ℚ) ^ (ilog2 a + 1) := by exact_mod_cast lt_ilog2 a ha
    have h3 : ((2 : ℚ) ^ (ilog2 q)) ≤ (q : ℚ) := by exact_mod_cast ilog2_le q hq
    have h4 : (2 : ℚ) ^ ((ilog2 a : Int) - (ilog2 q : Int) + 1) * (2 : ℚ) ^ (ilog2 q)
        = (2 : ℚ) ^ (ilog2 a + 1) := by
      rw [← zpow_natCast, ← zpow_natCast, ← zpow_add₀ h2]
      congr 1
      push_cast
      ring
    have hp := two_zpow_pos ((ilog2 a : Int) - (ilog2 q : Int) + 1)
    calc (a : ℚ) < (2 : ℚ) ^ (ilog2 a + 1) := h1
      _ = (2 : ℚ) ^ ((ilog2 a : Int) - (ilog2 q : Int) + 1) * (2 : ℚ) ^ (ilog2 q) := h4.symm
      _ ≤ (2 : ℚ) ^ ((ilog2 a : Int) - (ilog2 q : Int) + 1) * q :=
          mul_le_mul_of_nonneg_left h3 (le_of_lt hp)
  · rename_i h
    have hc : (a : ℚ) * (2 : ℚ) ^ (-((ilog2 a : Int) - (ilog2 q : Int))).toNat <
        (q : ℚ) * (2 : ℚ) ^ ((ilog2 a : Int) - (ilog2 q : Int)).toNat := by
      exact_mod_cast Nat.lt_of_not_le h
    rw [two_zpow_toNat ((ilog2 a : Int) - (ilog2 q : Int))] at hc
    have hp := pow_pos (by norm_num : (0 : ℚ) < 2) (-((ilog2 a : Int) - (ilog2 q : Int))).toNat
    have hc2 : (a : ℚ) * (2 : ℚ) ^ (-((ilog2 a : Int) - (ilog2 q : Int))).toNat <
        ((2 : ℚ) ^ ((ilog2 a : Int) - (ilog2 q : Int)) * q) *
          (2 : ℚ) ^ (-((ilog2 a : Int) - (ilog2 q : Int))).toNat := by
      linarith
    have hc3 := lt_of_mul_lt_mul_right hc2 (le_of_lt hp)
    rw [show (ilog2 a : Int) - (ilog2 q : Int) - 1 + 1 = (ilog2 a : Int) - (ilog2 q : Int) by ring]
    exact hc3

theorem round_half_even_cases (n d : Nat) :
    round_half_even n d = n / d ∨ round_half_even n d = n / d + 1 := by
  unfold round_half_even
  split
  · exact Or.inl rfl
  · split
    · exact Or.inr rfl
    · split
      · exact Or.inl rfl
      · exact Or.inr rfl

/-- The result of a rounding is zero or has a significand of exactly 53 bits. -/
theorem round_quot_normal (p : Int) (q : Nat) (s : Int) (hp : p ≠ 0) (hq : q ≠ 0) :
    2 ^ 52 ≤ (round_quot p q s).m.natAbs ∧ (round_quot p q s).m.natAbs < 2 ^ 53 := by
  have ha : p.natAbs ≠ 0 := Int.natAbs_ne_zero.mpr hp
  have hqpos : (0 : ℚ) < q := by exact_mod_cast Nat.pos_of_ne_zero hq
  have h2 : (2 : ℚ) ≠ 0 := by norm_num
  obtain ⟨k, hk⟩ : ∃ k : Int, k = quot_exp p.natAbs q - 52 := ⟨_, rfl⟩
  obtain ⟨n, hn⟩ : ∃ n : Nat, n = p.natAbs * 2 ^ (-k).toNat := ⟨_, rfl⟩
  obtain ⟨d, hd⟩ : ∃ d : Nat, d = q * 2 ^ k.toNat := ⟨_, rfl⟩
  obtain ⟨m, hm⟩ : ∃ m : Nat, m = round_half_even n d := ⟨_, rfl⟩
  have hdpos : 0 < d := by
    rw [hd]; exact Nat.mul_pos (Nat.pos_of_ne_zero hq) (Nat.pos_pow_of_pos _ (by decide))
  have hnd : (n : ℚ) * (2 : ℚ) ^ k * q = (p.natAbs : ℚ) * d := by
    rw [hn, hd]
    push_cast
    rw [two_zpow_toNat k]
    ring
  have hkpos := two_zpow_pos k
  have hlow := quot_exp_le p.natAbs q ha hq
  have hupp := quot_exp_lt p.natAbs q ha hq
  have hq52 : (2 : ℚ) ^ quot_exp p.natAbs q = (2 : ℚ) ^ k * 2 ^ 52 := by
    rw [hk, ← zpow_natCast, ← zpow_add₀ h2]; congr 1; push_cast; ring
  have hq53 : (2 : ℚ) ^ (quot_exp p.natAbs q + 1) = (2 : ℚ) ^ k * 2 ^ 53 := by
    rw [hk, ← zpow_natCast, ← zpow_add₀ h2]; congr 1; push_cast; ring
  rw [hq52] at hlow
  rw [hq53] at hupp
  have hdq : (0 : ℚ) < d := by exact_mod_cast hdpos
  have hkq : (0 : ℚ) < (2 : ℚ) ^ k * q := mul_pos hkpos hqpos
  have h1 : (2 : ℚ) ^ 52 * d ≤ n := by
    have : ((2 : ℚ) ^ 52 * d) * ((2 : ℚ) ^ k * q) ≤ (n : ℚ) * ((2 : ℚ) ^ k * q) := by
      have := mul_le_mul_of_nonneg_right hlow (le_of_lt hdq)
      nlinarith
    exact le_of_mul_le_mul_right this hkq
  have h3 : (n : ℚ) < (2 : ℚ) ^ 53 * d := by
    have : (n : ℚ) * ((2 : ℚ) ^ k * q) < ((2 : ℚ) ^ 53 * d) * ((2 : ℚ) ^ k * q) := by
      have := mul_lt_mul_of_pos_right hupp hdq
      nlinarith
    exact lt_of_mul_lt_mul_right this (le_of_lt hkq)
  have h1n : 2 ^ 52 * d ≤ n := by exact_mod_cast h1
  have h3n : n < 2 ^ 53 * d := by exact_mod_cast h3
  have hdiv1 : 2 ^ 52 ≤ n / d := (Nat.le_div_iff_mul_le hdpos).mpr h1n
  have hdiv2 : n / d < 2 ^ 53 := (Nat.div_lt_iff_lt_mul hdpos).mpr h3n
  have hm1 : 2 ^ 52 ≤ m ∧ m ≤ 2 ^ 53 := by
    rcases round_half_even_cases n d with h | h <;> rw [hm, h] <;> omega
  have hsign : p.sign.natAbs = 1 := by
    rcases lt_trichotomy p 0 with h | h | h
    · rw [Int.sign_eq_neg_one_of_neg h]; rfl
    · exact absurd h hp
    · rw [Int.sign_eq_one_of_pos h]; rfl
  unfold round_quot
  rw [if_neg hp]
  simp only [← hk, ← hn, ← hd, ← hm]
  split
  · simp only [Int.natAbs_mul, hsign]
    constructor <;> norm_num
  · rename_i hne
    simp only [Int.natAbs_mul, hsign, Int.natAbs_ofNat, one_mul]
    omega


theorem of_int_err (x : Int) :
    |(of_int x).toRat - (x : ℚ)| ≤ unit_roundoff * |(x : ℚ)| := by
  have h := round_quot_err x 1 0 (by decide)
  simpa [of_int] using h

theorem two_zpow_sub_toNat (e e0 : Int) (h : e0 ≤ e) :
    (2 : ℚ) ^ (e - e0).toNat * (2 : ℚ) ^ e0 = (2 : ℚ) ^ e := by
  rw [← zpow_natCast, Int.toNat_of_nonneg (by omega), ← zpow_add₀ (by norm_num : (2 : ℚ) ≠ 0)]
  congr 1
  ring

theorem dadd_err (a b : double) :
    |(dadd a b).toRat - (a.toRat + b.toRat)| ≤ unit_roundoff * |a.toRat + b.toRat| := by
  have h := round_quot_err
    (a.m * 2 ^ (a.e - min a.e b.e).toNat + b.m * 2 ^ (b.e - min a.e b.e).toNat) 1
    (min a.e b.e) (by decide)
  have hx : ((a.m * 2 ^ (a.e - min a.e b.e).toNat + b.m * 2 ^ (b.e - min a.e b.e).toNat : Int)
      : ℚ) / ((1 : Nat) : ℚ) * (2 : ℚ) ^ (min a.e b.e) = a.toRat + b.toRat := by
    simp only [double.toRat]
    push_cast
    rw [div_one, add_mul, mul_assoc, mul_assoc,
      two_zpow_sub_toNat a.e _ (min_le_left _ _), two_zpow_sub_toNat b.e _ (min_le_right _ _)]
  rw [hx] at h
  exact h

theorem fdiv_err (a b : double) (hb : b.m ≠ 0) :
    ∃ r, fdiv a b = some r ∧
      |r.toRat - a.toRat / b.toRat| ≤ unit_roundoff * |a.toRat / b.toRat| := by
  refine ⟨round_quot (a.m * b.m.sign) b.m.natAbs (a.e - b.e), by simp [fdiv, hb], ?_⟩
  have h := round_quot_err (a.m * b.m.sign) b.m.natAbs (a.e - b.e) (Int.natAbs_ne_zero.mpr hb)
  have hbq : (b.m : ℚ) ≠ 0 := by exact_mod_cast hb
  have hpb := two_zpow_pos b.e
  have hx : ((a.m * b.m.sign : Int) : ℚ) / ((b.m.natAbs : Nat) : ℚ) * (2 : ℚ) ^ (a.e - b.e)
      = a.toRat / b.toRat := by
    simp only [double.toRat]
    rw [zpow_sub₀ (by norm_num : (2 : ℚ) ≠ 0)]
    rcases lt_trichotomy b.m 0 with hneg | h0 | hpos
    · have hn : ((b.m.natAbs : Nat) : ℚ) = -(b.m : ℚ) := by
        have e : ((b.m.natAbs : Nat) : Int) = -b.m := Int.ofNat_natAbs_of_nonpos (le_of_lt hneg)
        have e2 : (((b.m.natAbs : Nat) : Int) : ℚ) = ((-b.m : Int) : ℚ) := by rw [e]
        simpa only [Int.cast_natCast, Int.cast_neg] using e2
      rw [Int.sign_eq_neg_one_of_neg hneg, hn]
      push_cast
      field_simp
    · exact absurd h0 hb
    · have hn : ((b.m.natAbs : Nat) : ℚ) = (b.m : ℚ) := by
        have e : ((b.m.natAbs : Nat) : Int) = b.m := Int.natAbs_of_nonneg (le_of_lt hpos)
        have e2 : (((b.m.natAbs : Nat) : Int) : ℚ) = (b.m : ℚ) := by rw [e]
        simpa only [Int.cast_natCast] using e2
      rw [Int.sign_eq_one_of_pos hpos, hn]
      push_cast
      field_simp
  rw [hx] at h
  exact h

theorem toRat_pos (x : double) : 0 < x.toRat ↔ 0 < x.m := by
  unfold double.toRat
  have hp := two_zpow_pos x.e
  constructor
  · intro h
    have : (0 : ℚ) < (x.m : ℚ) := (pos_iff_pos_of_mul_pos h).mpr hp
    exact_mod_cast this
  · intro h
    have : (0 : ℚ) < (x.m : ℚ) := by exact_mod_cast h
    exact mul_pos this hp

/-! ## `show_elapsed` -/

theorem abs_le_add_of_close (x y : ℚ) : |x| ≤ |x - y| + |y| := by
  have := abs_add (x - y) y
  simpa using this

/-- The error of `(double) d / 1000000.0 + (double) S` after its four roundings. -/
theorem elapsed_err (d S x0 x1 x2 x3 : ℚ)
    (h0 : |x0 - d| ≤ unit_roundoff * |d|)
    (h1 : |x1 - x0 / 1000000| ≤ unit_roundoff * |x0 / 1000000|)
    (h2 : |x2 - S| ≤ unit_roundoff * |S|)
    (h3 : |x3 - (x1 + x2)| ≤ unit_roundoff * |x1 + x2|) :
    |x3 - (d / 1000000 + S)| ≤ (|d| / 1000000 + |S|) / 2 ^ 51 := by
  unfold unit_roundoff at h0 h1 h2 h3
  have hd := abs_nonneg d
  have hS := abs_nonneg S
  have e0 := abs_le_add_of_close x0 d
  have e1 : |x0 / 1000000| = |x0| / 1000000 := by
    rw [abs_div]; norm_num
  have e2 : |x1 - d / 1000000| ≤ |x1 - x0 / 1000000| + |x0 - d| / 1000000 := by
    have h := abs_add (x1 - x0 / 1000000) ((x0 - d) / 1000000)
    have e : x1 - x0 / 1000000 + (x0 - d) / 1000000 = x1 - d / 1000000 := by ring
    have e3 : |(x0 - d) / 1000000| = |x0 - d| / 1000000 := by rw [abs_div]; norm_num
    rw [e, e3] at h
    exact h
  have e3 := abs_le_add_of_close x1 (d / 1000000)
  have e4 : |d / 1000000| = |d| / 1000000 := by rw [abs_div]; norm_num
  have e5 := abs_le_add_of_close x2 S
  have e6 := abs_add x1 x2
  have e7 : |x3 - (d / 1000000 + S)| ≤
      |x3 - (x1 + x2)| + (|x1 - d / 1000000| + |x2 - S|) := by
    have h := abs_add (x3 - (x1 + x2)) ((x1 - d / 1000000) + (x2 - S))
    have h' := abs_add (x1 - d / 1000000) (x2 - S)
    have e : x3 - (x1 + x2) + ((x1 - d / 1000000) + (x2 - S)) = x3 - (d / 1000000 + S) := by
      ring
    rw [e] at h
    linarith
  rw [e1] at h1
  rw [e4] at e3
  norm_num at h0 h1 h2 h3 ⊢
  linarith


theorem million_toRat : (of_int 1000000).toRat = 1000000 := by
  have h : of_int 1000000 = { m := 8589934592000000, e := -33 } := by decide
  rw [h]
  norm_num [double.toRat]

theorem million_ne_zero : (of_int 1000000).m ≠ 0 := by decide

/-- The value of `diff` in `show_elapsed` computed from the microseconds `d` and the
seconds `S`, against the exact `d / 1000000 + S`. -/
theorem elapsed_core (d S : Int) :
    ∃ x1, fdiv (of_int d) (of_int 1000000) = some x1 ∧
      |(dadd x1 (of_int S)).toRat - ((d : ℚ) / 1000000 + (S : ℚ))| ≤
        (|(d : ℚ)| / 1000000 + |(S : ℚ)|) / 2 ^ 51 := by
  obtain ⟨x1, hx1, h1⟩ := fdiv_err (of_int d) (of_int 1000000) million_ne_zero
  rw [million_toRat] at h1
  exact ⟨x1, hx1, elapsed_err d S _ _ _ _ (of_int_err d) h1 (of_int_err S)
    (dadd_err x1 (of_int S))⟩

/-- The error of `count / diff` after the conversion of `count` and the division. -/
theorem rate_err (c D x0 x1 : ℚ)
    (h0 : |x0 - c| ≤ unit_roundoff * |c|)
    (h1 : |x1 - x0 / D| ≤ unit_roundoff * |x0 / D|) :
    |x1 - c / D| ≤ |c / D| / 2 ^ 51 := by
  unfold unit_roundoff at h0 h1
  have hw : (0 : ℚ) ≤ |D|⁻¹ := inv_nonneg.mpr (abs_nonneg D)
  have e1 : |x0 / D| = |x0| * |D|⁻¹ := by rw [abs_div, div_eq_mul_inv]
  have e2 : |c / D| = |c| * |D|⁻¹ := by rw [abs_div, div_eq_mul_inv]
  have e3 : |x0 / D - c / D| = |x0 - c| * |D|⁻¹ := by
    rw [← sub_div, abs_div, div_eq_mul_inv]
  have e4 := mul_le_mul_of_nonneg_right h0 hw
  have e5 := mul_le_mul_of_nonneg_right (abs_le_add_of_close x0 c) hw
  have e6 : |x1 - c / D| ≤ |x1 - x0 / D| + |x0 / D - c / D| := by
    have h := abs_add (x1 - x0 / D) (x0 / D - c / D)
    have e : x1 - x0 / D + (x0 / D - c / D) = x1 - c / D := by ring
    rw [e] at h
    exact h
  have hc : (0 : ℚ) ≤ |c| * |D|⁻¹ := mul_nonneg (abs_nonneg c) hw
  rw [e1] at h1
  rw [e3] at e6
  rw [e2]
  norm_num at h1 e4 ⊢
  nlinarith

theorem show_elapsed_spec (start endt : timeval) (count : Int) :
    ∃ s, show_elapsed start endt count = some s ∧
      s.start = start ∧
      s.endt = (if endt.tv_usec > start.tv_usec then endt
                else { endt with tv_sec := endt.tv_sec - 1 }) ∧
      s.count = count ∧
      |s.diff.toRat - (((endt.tv_sec : ℚ) - (start.tv_sec : ℚ)) * 1000000 +
          ((endt.tv_usec : ℚ) - (start.tv_usec : ℚ))) / 1000000| ≤
        (2 + |(endt.tv_sec : ℚ) - (start.tv_sec : ℚ)| +
          |(endt.tv_usec : ℚ) - (start.tv_usec : ℚ)| / 1000000) / 2 ^ 51 ∧
      (0 < s.diff.toRat →
        fdiv (of_int count) s.diff = some s.rate ∧
        |s.rate.toRat - (count : ℚ) / s.diff.toRat| ≤
          |(count : ℚ) / s.diff.toRat| / 2 ^ 51) ∧
      (¬ 0 < s.diff.toRat → s.rate = double.zero) := by
  -- the microseconds and the seconds that enter the computation, on either branch
  obtain ⟨d, S, e2, hu, ⟨he2, hS⟩, hexact, hbound⟩ : ∃ (d S : Int) (e2 : timeval),
      (if endt.tv_usec > start.tv_usec then
          (of_int (endt.tv_usec - start.tv_usec), endt)
        else
          (of_int ((1000000 + endt.tv_usec) - start.tv_usec),
            { endt with tv_sec := endt.tv_sec - 1 })) = (of_int d, e2) ∧
      (e2 = (if endt.tv_usec > start.tv_usec then endt
                else { endt with tv_sec := endt.tv_sec - 1 }) ∧
        e2.tv_sec - start.tv_sec = S) ∧
      ((d : ℚ) / 1000000 + (S : ℚ) = (((endt.tv_sec : ℚ) - (start.tv_sec : ℚ)) * 1000000 +
          ((endt.tv_usec : ℚ) - (start.tv_usec : ℚ))) / 1000000) ∧
      (|(d : ℚ)| / 1000000 + |(S : ℚ)| ≤ 2 + |(endt.tv_sec : ℚ) - (start.tv_sec : ℚ)| +
          |(endt.tv_usec : ℚ) - (start.tv_usec : ℚ)| / 1000000) := by
    by_cases hb : endt.tv_usec > start.tv_usec
    · refine ⟨endt.tv_usec - start.tv_usec, endt.tv_sec - start.tv_sec, endt, ?_, ?_, ?_, ?_⟩
      · rw [if_pos hb]
      · rw [if_pos hb]; exact ⟨rfl, rfl⟩
      · push_cast; ring
      · push_cast
        have := abs_nonneg ((endt.tv_sec : ℚ) - (start.tv_sec : ℚ))
        linarith
    · refine ⟨(1000000 + endt.tv_usec) - start.tv_usec, endt.tv_sec - 1 - start.tv_sec,
        { endt with tv_sec := endt.tv_sec - 1 }, ?_, ?_, ?_, ?_⟩
      · rw [if_neg hb]
      · rw [if_neg hb]; exact ⟨rfl, rfl⟩
      · push_cast; ring
      · push_cast
        have h1 : |1000000 + (endt.tv_usec : ℚ) - (start.tv_usec : ℚ)| ≤
            1000000 + |(endt.tv_usec : ℚ) - (start.tv_usec : ℚ)| := by
          have h := abs_add (1000000 : ℚ) ((endt.tv_usec : ℚ) - (start.tv_usec : ℚ))
          have e : (1000000 : ℚ) + ((endt.tv_usec : ℚ) - (start.tv_usec : ℚ)) =
              1000000 + (endt.tv_usec : ℚ) - (start.tv_usec : ℚ) := by ring
          rw [e] at h
          have e1 : |(1000000 : ℚ)| = 1000000 := abs_of_pos (by norm_num)
          rw [e1] at h
          exact h
        have h2 : |(endt.tv_sec : ℚ) - 1 - (start.tv_sec : ℚ)| ≤
            |(endt.tv_sec : ℚ) - (start.tv_sec : ℚ)| + 1 := by
          have h := abs_add ((endt.tv_sec : ℚ) - (start.tv_sec : ℚ)) (-1)
          have e : (endt.tv_sec : ℚ) - (start.tv_sec : ℚ) + -1 =
              (endt.tv_sec : ℚ) - 1 - (start.tv_sec : ℚ) := by ring
          rw [e] at h
          have e1 : |(-1 : ℚ)| = 1 := by norm_num
          rw [e1] at h
          exact h
        linarith
  obtain ⟨x1, hx1, hx1err⟩ := elapsed_core d S
  rw [hexact] at hx1err
  have hdiff : |(dadd x1 (of_int S)).toRat - (((endt.tv_sec : ℚ) - (start.tv_sec : ℚ)) * 1000000 +
          ((endt.tv_usec : ℚ) - (start.tv_usec : ℚ))) / 1000000| ≤
        (2 + |(endt.tv_sec : ℚ) - (start.tv_sec : ℚ)| +
          |(endt.tv_usec : ℚ) - (start.tv_usec : ℚ)| / 1000000) / 2 ^ 51 := by
    have : (|(d : ℚ)| / 1000000 + |(S : ℚ)|) / 2 ^ 51 ≤
        (2 + |(endt.tv_sec : ℚ) - (start.tv_sec : ℚ)| +
          |(endt.tv_usec : ℚ) - (start.tv_usec : ℚ)| / 1000000) / 2 ^ 51 :=
      div_le_div_of_nonneg_right hbound (by positivity)
    exact le_trans hx1err this
  unfold show_elapsed
  simp only [hu, hx1, hS]
  by_cases hpos : (dadd x1 (of_int S)).m > 0
  · have hne : (dadd x1 (of_int S)).m ≠ 0 := by omega
    obtain ⟨r, hr, hrerr⟩ := fdiv_err (of_int count) (dadd x1 (of_int S)) hne
    simp only [hpos, if_true, hr]
    refine ⟨_, rfl, rfl, he2, rfl, hdiff, fun _ => ⟨hr, ?_⟩, fun hn => ?_⟩
    · exact rate_err _ _ _ _ (of_int_err count) hrerr
    · exact absurd ((toRat_pos _).mpr hpos) hn
  · simp only [hpos, if_false]
    refine ⟨_, rfl, rfl, he2, rfl, hdiff, fun hp => ?_, fun _ => rfl⟩
    exact absurd ((toRat_pos _).mp hp) hpos

/-- Known binary64 values: `100000 / 1000000.0` is the `double` nearest to 0.1, and
`1000000.0` is exact. -/
theorem double_examples :
    fdiv (of_int 100000) (of_int 1000000) = some { m := 7205759403792794, e := -56 } ∧
    of_int 1000000 = { m := 8589934592000000, e := -33 } ∧
    of_int (2 ^ 53 + 1) = { m := 2 ^ 52, e := 1 } ∧
    of_int (2 ^ 53 + 3) = { m := 2 ^ 52 + 2, e := 1 } := by
  decide

/-- C6, as stated, fails: with start (0, 0) and end (0, 100000) the elapsed time
`show_elapsed` computes is the `double` 7205759403792794 * 2^-56, which is not the rational
`((0 - 0) * 1000000 + (100000 - 0)) / 1000000 = 1/10`. -/
theorem show_elapsed_diff_inexact :
    ∃ s, show_elapsed ⟨0, 0⟩ ⟨0, 100000⟩ 100 = some s ∧
      s.diff = { m := 7205759403792794, e := -56 } ∧
      s.diff.toRat ≠ (((0 : ℚ) - 0) * 1000000 + ((100000 : ℚ) - 0)) / 1000000 := by
  have h : (show_elapsed ⟨0, 0⟩ ⟨0, 100000⟩ 100).map (fun s => s.diff) =
      some { m := 7205759403792794, e := -56 } := by decide
  cases hs : show_elapsed ⟨0, 0⟩ ⟨0, 100000⟩ 100 with
  | none => rw [hs] at h; exact Option.noConfusion h
  | some s =>
    rw [hs] at h
    have hd : s.diff = { m := 7205759403792794, e := -56 } := by simpa using h
    refine ⟨s, rfl, hd, ?_⟩
    rw [hd]
    norm_num [double.toRat]

/-- C7: for every count and every pair of timestamps `show_elapsed` returns without
dividing by zero; the elapsed time it computes is the `double` within the rounding bound of
the exact difference of the timestamps; when it is positive the rate is the `double`
quotient `count / elapsed`, within `2^-51` (relative) of the exact quotient; otherwise the
rate is 0, and in particular it is 0 when the elapsed time is 0. -/
theorem show_elapsed_rate (start endt : timeval) (count : Int) :
    ∃ s, show_elapsed start endt count = some s ∧
      |s.diff.toRat - (((endt.tv_sec : ℚ) - (start.tv_sec : ℚ)) * 1000000 +
          ((endt.tv_usec : ℚ) - (start.tv_usec : ℚ))) / 1000000| ≤
        (2 + |(endt.tv_sec : ℚ) - (start.tv_sec : ℚ)| +
          |(endt.tv_usec : ℚ) - (start.tv_usec : ℚ)| / 1000000) / 2 ^ 51 ∧
      (0 < s.diff.toRat →
        fdiv (of_int count) s.diff = some s.rate ∧
        |s.rate.toRat - (count : ℚ) / s.diff.toRat| ≤
          |(count : ℚ) / s.diff.toRat| / 2 ^ 51) ∧
      (¬ 0 < s.diff.toRat → s.rate.toRat = 0) ∧
      (s.diff.toRat = 0 → s.rate.toRat = 0) := by
  obtain ⟨s, hs, _, _, _, hd, hpos, hneg⟩ := show_elapsed_spec start endt count
  have hz : ¬ 0 < s.diff.toRat → s.rate.toRat = 0 := by
    intro h
    rw [hneg h]
    simp [double.toRat, double.zero]
  refine ⟨s, hs, hd, hpos, hz, ?_⟩
  intro h0
  exact hz (by rw [h0]; exact lt_irrefl 0)

/-- The rate at the borrow example of the specification with 100 transfers is the `double`
nearest to `100 / 1.75`; when start and end are the same instant the elapsed time and the
rate are both 0. -/
theorem show_elapsed_rate_examples :
    (show_elapsed ⟨10, 500000⟩ ⟨12, 250000⟩ 100).map (fun s => s.rate) =
      some { m := 8042142191733029, e := -47 } ∧
    (show_elapsed ⟨10, 100000⟩ ⟨10, 100000⟩ 100).map (fun s => (s.diff, s.rate)) =
      some (double.zero, double.zero) := by
  decide

/-- C10, as stated, fails: with start (10, 500000) and end (12, 250000) `show_elapsed`
returns with the seconds of the end timestamp at 11, not 12. -/
theorem show_elapsed_mutates_end :
    ∃ s, show_elapsed ⟨10, 500000⟩ ⟨12, 250000⟩ 100 = some s ∧
      s.endt.tv_sec = 11 ∧ s.endt ≠ (⟨12, 250000⟩ : timeval) := by
  obtain ⟨s, hs, _, he, _, _, _, _⟩ := show_elapsed_spec ⟨10, 500000⟩ ⟨12, 250000⟩ 100
  refine ⟨s, hs, ?_, ?_⟩ <;> rw [he] <;> decide

/-- C10, amended: `show_elapsed` leaves both components of the start timestamp and the
microseconds of the end timestamp unchanged; the seconds of the end timestamp are unchanged
when `end.usec > start.usec` and are one less otherwise. -/
theorem show_elapsed_frame (start endt : timeval) (count : Int) :
    ∃ s, show_elapsed start endt count = some s ∧
      s.start.tv_sec = start.tv_sec ∧ s.start.tv_usec = start.tv_usec ∧
      s.endt.tv_usec = endt.tv_usec ∧
      s.endt.tv_sec = (if endt.tv_usec > start.tv_usec then endt.tv_sec
                       else endt.tv_sec - 1) := by
  obtain ⟨s, hs, hst, he, _, _, _, _⟩ := show_elapsed_spec start endt count
  refine ⟨s, hs, by rw [hst], by rw [hst], ?_, ?_⟩
  · rw [he]; split <;> rfl
  · rw [he]; split <;> rfl

/-! ## The submission loop and the teardown of `loop` -/

theorem wrap_int_eq (x : Int) (h0 : -2147483648 ≤ x) (h1 : x ≤ 2147483647) :
    wrap_int x = x := by
  unfold wrap_int
  omega

theorem loop_while_count (env : Env) (blocks k : Nat) :
    ∀ (fuel n : Nat) (count : Int) (rx : List Nat) (calls : List Call),
      (∀ i, i < k → env.abort_read (n + i) = false ∧ 0 ≤ env.ioctl_ret (n + i)) →
      (env.abort_read (n + k) = true ∨ env.ioctl_ret (n + k) < 0) →
      k < fuel → -2147483648 ≤ count → count + (k : Int) * (blocks : Int) ≤ 2147483647 →
      ∃ b rx2 calls2, loop_while env blocks fuel n count rx calls =
        some (b, count + (k : Int) * (blocks : Int), rx2, calls2) := by
  induction k with
  | zero =>
    intro fuel n count rx calls _ hstop hfuel _ _
    obtain ⟨f, rfl⟩ : ∃ f, fuel = f + 1 := ⟨fuel - 1, by omega⟩
    simp only [Nat.add_zero] at hstop
    unfold loop_while
    by_cases ha : env.abort_read n = true
    · exact ⟨true, rx, calls, by simp [ha]⟩
    · have hi : env.ioctl_ret n < 0 := by
        rcases hstop with h | h
        · exact absurd h ha
        · exact h
      exact ⟨false, rx, calls ++ [Call.ioctl (env.ioctl_ret n)], by simp [ha, hi]⟩
  | succ k ih =>
    intro fuel n count rx calls hok hstop hfuel hlo hhi
    obtain ⟨f, rfl⟩ : ∃ f, fuel = f + 1 := ⟨fuel - 1, by omega⟩
    have h0 := hok 0 (by omega)
    simp only [Nat.add_zero] at h0
    have hnn : (0 : Int) ≤ (k : Int) * (blocks : Int) :=
      mul_nonneg (Int.ofNat_nonneg k) (Int.ofNat_nonneg blocks)
    have hb : (0 : Int) ≤ (blocks : Int) := Int.ofNat_nonneg blocks
    have hexp : ((k + 1 : Nat) : Int) * (blocks : Int) = (k : Int) * (blocks : Int) + blocks := by
      push_cast; ring
    rw [hexp] at hhi
    have hw : wrap_int (count + (blocks : Int)) = count + blocks :=
      wrap_int_eq _ (by omega) (by omega)
    have hni : ¬ env.ioctl_ret n < 0 := by omega
    obtain ⟨b, rx2, calls2, hrun⟩ := ih f (n + 1) (count + blocks) (env.ioctl_rx n rx)
      (calls ++ [Call.ioctl (env.ioctl_ret n)])
      (fun i hi => by
        have h := hok (i + 1) (by omega)
        rwa [show n + (i + 1) = n + 1 + i by omega] at h)
      (by rwa [show n + (k + 1) = n + 1 + k by omega] at hstop)
      (by omega) (by omega) (by omega)
    refine ⟨b, rx2, calls2, ?_⟩
    unfold loop_while
    simp only [h0.1, hni, if_false, hw, Bool.false_eq_true]
    rw [hrun, hexp]
    congr 3
    ring

/-- C8: for a block count in 1..1000 and `k` with `k * blocks` in the range of `int`: when
the three allocations and `open` succeed, the first `k` submissions succeed with the stop
flag clear before each, and then either the stop flag is seen set or submission `k + 1`
fails, `loop` returns (given fuel for more than `k` iterations) and the count it returns is
`k * blocks`. -/
theorem loop_returns_count (env : Env) (fuel : Nat) (speed : Int) (blocks : Nat) (ch : Int)
    (k : Nat) (mtr : Block spi_ioc_transfer) (mtx mrx : Block Nat)
    (h1 : 1 ≤ blocks) (h2 : blocks ≤ 1000)
    (htr : env.malloc_tr = some mtr) (htx : env.malloc_tx = some mtx)
    (hrx : env.malloc_rx = some mrx) (hopen : 0 ≤ env.open_ret)
    (hok : ∀ i, i < k → env.abort_read i = false ∧ 0 ≤ env.ioctl_ret i)
    (hstop : env.abort_read k = true ∨ env.ioctl_ret k < 0)
    (hrange : (k : Int) * (blocks : Int) ≤ 2147483647)
    (hfuel : k < fuel) :
    ∃ r, loop env fuel speed blocks ch = some r ∧ r.count = (k : Int) * (blocks : Int) := by
  have _ := h1
  have _ := h2
  obtain ⟨b, rx2, calls2, hrun⟩ := loop_while_count env blocks k fuel 0 0
    (loop_build speed blocks ch mtr mtx mrx).rx
    [Call.malloc Buf.tr true, Call.malloc Buf.tx true, Call.malloc Buf.rx true,
      Call.open_dev env.open_ret]
    (fun i hi => by simpa using hok i hi) (by simpa using hstop) hfuel (by omega)
    (by omega)
  have hnf : ¬ env.open_ret < 0 := by omega
  unfold loop
  simp only [htr, htx, hrx, hnf, if_false, hrun]
  cases b <;> exact ⟨_, rfl, by simp [loop_done]⟩

/-- C8 for one block, 100 successful submissions and then
the stop flag set: `loop` returns 100. -/
theorem loop_returns_count_witness :
    1 ≤ 1 ∧ 1 ≤ 1000 ∧ (0 : Int) ≤ (sample_env 3 100).open_ret ∧
    (∀ i, i < 100 →
      (sample_env 3 100).abort_read i = false ∧ 0 ≤ (sample_env 3 100).ioctl_ret i) ∧
    ((sample_env 3 100).abort_read 100 = true ∨ (sample_env 3 100).ioctl_ret 100 < 0) ∧
    ((100 : Nat) : Int) * ((1 : Nat) : Int) ≤ 2147483647 ∧ 100 < 101 ∧
    ∃ r, loop (sample_env 3 100) 101 3600000 1 0 = some r ∧ r.count = 100 :=
  ⟨by decide, by decide, by decide,
    fun i hi => ⟨by simp [sample_env]; omega, by simp [sample_env]⟩,
    Or.inl (by simp [sample_env]), by decide, by decide,
    (loop_returns_count (sample_env 3 100) 101 3600000 1 0 100 stale_tr (stale_bytes 8192)
      (stale_bytes 12288) (by decide) (by decide) rfl rfl rfl (by decide)
      (fun i hi => ⟨by simp [sample_env]; omega, by simp [sample_env]⟩)
      (Or.inl (by simp [sample_env])) (by decide) (by decide)).imp
      (fun _ h => ⟨h.1, h.2.trans (by norm_num)⟩)⟩

/-- C9, what the code does: when the three allocations succeed and `open` returns the
descriptor 0, `loop` runs one submission, sees the stop flag and returns 1 having freed the
three blocks and never called `close`: the descriptor it acquired is not released. -/
theorem loop_leaks_fd_zero :
    (loop (sample_env 0 1) 2 3600000 1 0).map (fun r => (r.count, r.calls)) =
      some (1, [Call.malloc Buf.tr true, Call.malloc Buf.tx true, Call.malloc Buf.rx true,
        Call.open_dev 0, Call.ioctl 0, Call.free Buf.rx, Call.free Buf.tx,
        Call.free Buf.tr]) ∧
    (loop (sample_env 0 1) 2 3600000 1 0).map (fun r => acquired r.calls (Resource.fd 0)) =
      some 1 ∧
    (loop (sample_env 0 1) 2 3600000 1 0).map (fun r => released r.calls (Resource.fd 0)) =
      some 0 := by
  decide

theorem loop_while_calls (env : Env) (blocks : Nat) :
    ∀ (fuel n : Nat) (count : Int) (rx : List Nat) (calls : List Call)
      (b : Bool) (c : Int) (rx2 : List Nat) (calls2 : List Call),
      loop_while env blocks fuel n count rx calls = some (b, c, rx2, calls2) →
      ∃ extra, calls2 = calls ++ extra ∧ ∀ x ∈ extra, ∃ ret, x = Call.ioctl ret := by
  intro fuel
  induction fuel with
  | zero =>
    intro n count rx calls b c rx2 calls2 h
    simp [loop_while] at h
  | succ f ih =>
    intro n count rx calls b c rx2 calls2 h
    unfold loop_while at h
    by_cases ha : env.abort_read n = true
    · simp only [ha, if_true, Option.some.injEq, Prod.mk.injEq] at h
      exact ⟨[], by simp [h.2.2.2], by simp⟩
    · by_cases hi : env.ioctl_ret n < 0
      · simp only [ha, hi, if_true, if_false, Option.some.injEq, Prod.mk.injEq,
          Bool.false_eq_true] at h
        refine ⟨[Call.ioctl (env.ioctl_ret n)], h.2.2.2.symm, ?_⟩
        intro x hx
        exact ⟨env.ioctl_ret n, by simpa using hx⟩
      · simp only [ha, hi, if_false, Bool.false_eq_true] at h
        obtain ⟨extra, he, hall⟩ := ih _ _ _ _ _ _ _ _ h
        refine ⟨Call.ioctl (env.ioctl_ret n) :: extra, by simp [he], ?_⟩
        intro x hx
        rcases List.mem_cons.mp hx with hx | hx
        · exact ⟨_, hx⟩
        · exact hall x hx

theorem countP_ioctl_acquires (extra : List Call) (res : Resource)
    (h : ∀ x ∈ extra, ∃ ret, x = Call.ioctl ret) :
    extra.countP (fun c => c.acquires res) = 0 := by
  rw [List.countP_eq_zero]
  intro x hx
  obtain ⟨ret, rfl⟩ := h x hx
  cases res <;> simp [Call.acquires]

theorem countP_ioctl_releases (extra : List Call) (res : Resource)
    (h : ∀ x ∈ extra, ∃ ret, x = Call.ioctl ret) :
    extra.countP (fun c => c.releases res) = 0 := by
  rw [List.countP_eq_zero]
  intro x hx
  obtain ⟨ret, rfl⟩ := h x hx
  cases res <;> simp [Call.releases]

/-- On every path of `loop` on which `open` is not reached or returns a value other than 0,
no resource is acquired twice and every resource that was acquired is released exactly
once. -/
theorem loop_releases_once (env : Env) (fuel : Nat) (speed : Int) (blocks : Nat) (ch : Int)
    (r : LoopResult) (hr : loop env fuel speed blocks ch = some r)
    (hfd : env.open_ret ≠ 0) (res : Resource) :
    acquired r.calls res ≤ 1 ∧ (acquired r.calls res = 1 → released r.calls res = 1) := by
  unfold loop at hr
  cases htr : env.malloc_tr with
  | none =>
    simp only [htr, Option.some.injEq] at hr
    subst hr
    rcases res with b | m
    · cases b <;> simp [loop_done, acquired, released, Call.acquires, Call.releases]
    · simp [loop_done, acquired, released, Call.acquires, Call.releases]
  | some mtr =>
    cases htx : env.malloc_tx with
    | none =>
      simp only [htr, htx, Option.some.injEq] at hr
      subst hr
      rcases res with b | m
      · cases b <;> simp [loop_done, acquired, released, Call.acquires, Call.releases]
      · simp [loop_done, acquired, released, Call.acquires, Call.releases]
    | some mtx =>
      cases hrx : env.malloc_rx with
      | none =>
        simp only [htr, htx, hrx, Option.some.injEq] at hr
        subst hr
        rcases res with b | m
        · cases b <;> simp [loop_done, acquired, released, Call.acquires, Call.releases]
        · simp [loop_done, acquired, released, Call.acquires, Call.releases]
      | some mrx =>
        simp only [htr, htx, hrx] at hr
        by_cases hneg : env.open_ret < 0
        · simp only [hneg, if_true, Option.some.injEq] at hr
          subst hr
          have hnn : ¬ 0 ≤ env.open_ret := by omega
          rcases res with b | m
          · cases b <;>
              simp [loop_done, hfd, acquired, released, Call.acquires, Call.releases]
          · simp [loop_done, hfd, acquired, released, Call.acquires, Call.releases, hnn]
        · simp only [hneg, if_false] at hr
          have hnn : 0 ≤ env.open_ret := by omega
          cases hw : loop_while env blocks fuel 0 0 (loop_build speed blocks ch mtr mtx mrx).rx
              [Call.malloc Buf.tr true, Call.malloc Buf.tx true, Call.malloc Buf.rx true,
                Call.open_dev env.open_ret] with
          | none => simp [hw] at hr
          | some t =>
            obtain ⟨b, c, rx2, calls2⟩ := t
            obtain ⟨extra, he, hall⟩ := loop_while_calls env blocks _ _ _ _ _ _ _ _ _ hw
            have ha := countP_ioctl_acquires extra res hall
            have hl := countP_ioctl_releases extra res hall
            have hcalls : r.calls =
                [Call.malloc Buf.tr true, Call.malloc Buf.tx true, Call.malloc Buf.rx true,
                  Call.open_dev env.open_ret] ++ extra ++
                [Call.close env.open_ret, Call.free Buf.rx, Call.free Buf.tx,
                  Call.free Buf.tr] := by
              rw [hw] at hr
              cases b <;>
              · simp only [Option.some.injEq] at hr
                subst hr
                simp [loop_done, hfd, he]
            rw [hcalls]
            simp only [acquired, released, List.countP_append, ha, hl]
            rcases res with b | m
            · cases b <;> simp [Call.acquires, Call.releases]
            · by_cases hm : env.open_ret = m
              · subst hm
                simp [Call.acquires, Call.releases, hnn]
              · simp [Call.acquires, Call.releases, hm, hnn]

/-- With one block the batch is a single descriptor whose `cs_change` is 0. -/
theorem loop_build_single :
    (loop_build 3600000 1 0 stale_tr (stale_bytes 8192) (stale_bytes 12288)).tr.map
      (fun d => d.cs_change) = [0] := by
  decide

/-- A transfer failure after two submissions of a batch of four: `loop` returns 8 and
closes the descriptor and frees the three blocks once each. -/
theorem loop_transfer_failure :
    (loop (failing_env 3 2) 5 3600000 4 0).map (fun r => (r.count, r.calls)) =
      some (8, [Call.malloc Buf.tr true, Call.malloc Buf.tx true, Call.malloc Buf.rx true,
        Call.open_dev 3, Call.ioctl 0, Call.ioctl 0, Call.ioctl (-1), Call.close 3,
        Call.free Buf.rx, Call.free Buf.tx, Call.free Buf.tr]) := by
  decide

/-- When `open` fails with -1, `loop` returns 0 after `close(-1)` and the three frees, with
no submission. -/
theorem loop_open_failure :
    (loop (sample_env (-1) 1) 1 3600000 1 0).map (fun r => (r.count, r.calls)) =
      some (0, [Call.malloc Buf.tr true, Call.malloc Buf.tx true, Call.malloc Buf.rx true,
        Call.open_dev (-1), Call.close (-1), Call.free Buf.rx, Call.free Buf.tx,
        Call.free Buf.tr]) := by
  decide

end Mcp3008
